import Mathlib

/-!
Shallow embedding of `src/RRL.py` (a generator of randomized URLs).

The program consists of three pure functions plus a CLI wrapper:
  * `generate_random_tld`  (RRL.py lines 11-30)
  * `generate_links`       (RRL.py lines 33-62)
  * `randomize_and_generate_links` (RRL.py lines 65-80), whose only logic
    beyond `generate_links` is `random.shuffle`.

The Python library functions the program calls are embedded as well,
following CPython's `urllib.parse` (`urlparse`, `urlunparse`, the
`hostname`/port extraction from the netloc) and `str.format` restricted to
the constructs the program's path patterns can use (literal text, the brace
escapes, automatic fields and purely numeric manual fields; conversion
suffixes and format specs such as a colon inside a field are outside the
modelled fragment and are mapped to a distinguished `FmtError.unsupported`).

Strings are embedded as `List Char` (`Str`). Case folding models the ASCII
behaviour of `str.lower`; randomness (`random.choice`, `random.choices`,
`random.shuffle`) is embedded by explicit oracles supplying the drawn
indices, so that every random draw stays inside the support of the
corresponding Python distribution.
-/

/-- Python strings are embedded as lists of characters. -/
abbrev Str := List Char

deriving instance DecidableEq for Except

/-- The 26 lowercase ASCII letters (`string.ascii_lowercase`). -/
def ascii_lowercase : Str := "abcdefghijklmnopqrstuvwxyz".toList

/-- The uppercase ASCII letters. -/
def asciiUppers : Str := "ABCDEFGHIJKLMNOPQRSTUVWXYZ".toList

/-- The ASCII letters, as used by `c.isascii() and c.isalpha()`. -/
def asciiLetters : Str := "abcdefghijklmnopqrstuvwxyzABCDEFGHIJKLMNOPQRSTUVWXYZ".toList

/-- The decimal digits. -/
def digitChars : Str := "0123456789".toList

/-- `scheme_chars` from CPython's urllib.parse: characters allowed after the
first letter of a URL scheme. -/
def schemeChars : Str :=
  "abcdefghijklmnopqrstuvwxyzABCDEFGHIJKLMNOPQRSTUVWXYZ0123456789+-.".toList

/-- ASCII case folding of one character (what `str.lower` does on ASCII input;
the program only lowercases schemes and hostnames). -/
def lowerChar (c : Char) : Char :=
  if 'A' ≤ c ∧ c ≤ 'Z' then Char.ofNat (c.toNat + 32) else c

/-- ASCII case folding of a string. -/
def lowerStr (s : Str) : Str := s.map lowerChar

/-- A tab, carriage return or line feed: `_UNSAFE_URL_BYTES_TO_REMOVE`,
removed from the whole URL by `urlsplit`. -/
def unsafeChar (c : Char) : Bool := c == '\t' || c == '\r' || c == '\n'

/-- A C0 control character or space (`_WHATWG_C0_CONTROL_OR_SPACE`),
stripped from the front of the URL by `urlsplit`. -/
def c0OrSpace (c : Char) : Bool := decide (c.toNat ≤ 32)

/-- The normalisation `urlsplit` applies to its argument before parsing:
strip leading C0 controls and spaces, then delete every tab, CR and LF. -/
def cleanUrl (u : Str) : Str :=
  (u.dropWhile c0OrSpace).filter (fun c => !unsafeChar c)

/-- The scheme-splitting step of `urlsplit`: if the first colon is preceded by
an ASCII letter followed by scheme characters, the part before it (lowercased)
is the scheme and parsing continues after the colon; otherwise there is no
scheme and the URL is left untouched. -/
def splitScheme (url : Str) : Str × Str :=
  let pre := url.takeWhile (fun c => c != ':')
  let post := url.dropWhile (fun c => c != ':')
  match post, pre with
  | ':' :: rest, c :: cs =>
      if c ∈ asciiLetters ∧ cs.all (fun d => decide (d ∈ schemeChars)) then
        (lowerStr (c :: cs), rest)
      else ([], url)
  | _, _ => ([], url)

/-- A character ending the netloc: `_splitnetloc` stops at the first of
`/`, `?` or `#`. -/
def netlocStop (c : Char) : Bool := c == '/' || c == '?' || c == '#'

/-- `_splitnetloc`: the netloc is everything after `//` up to the first
`/`, `?` or `#`; the remainder (delimiter included) is returned as well. -/
def splitNetloc (rest : Str) : Str × Str :=
  (rest.takeWhile (fun c => !netlocStop c), rest.dropWhile (fun c => !netlocStop c))

/-- `s.split(c, 1)`: the part before the first occurrence of `c`, and the part
after it when `c` occurs (`none` when it does not). -/
def splitOnce (c : Char) (s : Str) : Str × Option Str :=
  match s.dropWhile (fun d => d != c) with
  | _ :: r => (s.takeWhile (fun d => d != c), some r)
  | [] => (s, none)

/-- The result of `urlsplit`. -/
structure SplitResult where
  scheme : Str
  netloc : Str
  path : Str
  query : Str
  fragment : Str
  deriving DecidableEq, Repr

/-- The fragment and query splitting `urlsplit` performs on what remains after
the scheme and netloc have been removed: the fragment is everything after the
first `#`, then the query is everything after the first `?` of what is left. -/
def splitRest (scheme netloc rest : Str) : SplitResult :=
  let f := splitOnce '#' rest
  let q := splitOnce '?' f.1
  ⟨scheme, netloc, q.1, (q.2).getD [], (f.2).getD []⟩

/-- CPython's `urlsplit` (with the default `scheme=''`, `allow_fragments=True`):
normalise the URL, split off the scheme, read the netloc when the remainder
starts with `//` (raising `ValueError` – modelled as `.error ()` – when the
netloc has a `[` without `]` or a `]` without `[`), then split fragment and
query. -/
def urlsplit (u : Str) : Except Unit SplitResult :=
  let url0 := cleanUrl u
  let sp := splitScheme url0
  match sp.2 with
  | '/' :: '/' :: rest =>
      let nl := splitNetloc rest
      if ('[' ∈ nl.1 ∧ ']' ∉ nl.1) ∨ (']' ∈ nl.1 ∧ '[' ∉ nl.1) then .error ()
      else .ok (splitRest sp.1 nl.1 nl.2)
  | other => .ok (splitRest sp.1 [] other)

/-- `uses_params` from urllib.parse: the schemes for which `urlparse` splits
parameters off the path. -/
def uses_params : List Str :=
  [[], "ftp".toList, "hdl".toList, "prospero".toList, "http".toList,
   "imap".toList, "https".toList, "shttp".toList, "rtsp".toList,
   "rtspu".toList, "sip".toList, "sips".toList, "mms".toList,
   "sftp".toList, "tel".toList]

/-- `_splitparams`: the params are everything after the first `;` that occurs
in the last `/`-separated segment of the path (everything after the first `;`
at all when the path has no `/`); the path keeps what precedes that `;`. -/
def splitParams (url : Str) : Str × Str :=
  if '/' ∈ url then
    let bRev := url.reverse.takeWhile (fun c => c != '/')
    let aRev := url.reverse.dropWhile (fun c => c != '/')
    match splitOnce ';' bRev.reverse with
    | (b1, some b2) => (aRev.reverse ++ b1, b2)
    | (_, none) => (url, [])
  else
    match splitOnce ';' url with
    | (u1, some u2) => (u1, u2)
    | (_, none) => (url, [])

/-- The result of `urlparse` (a `SplitResult` with the params split out). -/
structure ParseResult where
  scheme : Str
  netloc : Str
  path : Str
  params : Str
  query : Str
  fragment : Str
  deriving DecidableEq, Repr

/-- CPython's `urlparse`: `urlsplit`, then split params off the path when the
scheme uses params and the path contains a `;`. -/
def urlparse (u : Str) : Except Unit ParseResult :=
  (urlsplit u).map fun s =>
    if s.scheme ∈ uses_params ∧ ';' ∈ s.path then
      let pp := splitParams s.path
      ⟨s.scheme, s.netloc, pp.1, pp.2, s.query, s.fragment⟩
    else
      ⟨s.scheme, s.netloc, s.path, [], s.query, s.fragment⟩

/-- The part of the netloc after the last `@` (`netloc.rpartition('@')[2]`). -/
def hostAfterAt (netloc : Str) : Str :=
  (netloc.reverse.takeWhile (fun c => c != '@')).reverse

/-- The raw host part of `_hostinfo`: for a bracketed netloc the text between
the first `[` and the following `]`, otherwise everything before the first
`:`. -/
def hostRaw (netloc : Str) : Str :=
  let hostinfo := hostAfterAt netloc
  if '[' ∈ hostinfo then
    (((hostinfo.dropWhile (fun c => c != '[')).drop 1).takeWhile (fun c => c != ']'))
  else
    hostinfo.takeWhile (fun c => c != ':')

/-- The raw port part of `_hostinfo` (`none` when empty, matching
`if not port: port = None`). The `.port` property additionally insists on a
decimal value; a nonempty raw port is what makes a netloc "contain a port". -/
def portRaw (netloc : Str) : Option Str :=
  let hostinfo := hostAfterAt netloc
  let p :=
    if '[' ∈ hostinfo then
      let afterBr := ((hostinfo.dropWhile (fun c => c != '[')).drop 1).dropWhile
        (fun c => c != ']')
      ((afterBr.drop 1).dropWhile (fun c => c != ':')).drop 1
    else
      (hostinfo.dropWhile (fun c => c != ':')).drop 1
  if p = [] then none else some p

/-- The `hostname` property of a parse result: the raw host lowercased, or
`None` when it is empty. -/
def hostname (p : ParseResult) : Option Str :=
  let h := hostRaw p.netloc
  if h = [] then none else some (lowerStr h)

/-- CPython's `urlunsplit`. -/
def urlunsplit (scheme netloc url query fragment : Str) : Str :=
  let url1 :=
    if netloc ≠ [] ∨ (url ≠ [] ∧ url.take 2 = ['/', '/']) then
      let url2 := if url ≠ [] ∧ url.take 1 ≠ ['/'] then '/' :: url else url
      '/' :: '/' :: (netloc ++ url2)
    else url
  let url3 := if scheme ≠ [] then scheme ++ ':' :: url1 else url1
  let url4 := if query ≠ [] then url3 ++ '?' :: query else url3
  if fragment ≠ [] then url4 ++ '#' :: fragment else url4

/-- CPython's `urlunparse`: re-attach the params to the path with `;`, then
`urlunsplit`. -/
def urlunparse (p : ParseResult) : Str :=
  let url := if p.params ≠ [] then p.path ++ ';' :: p.params else p.path
  urlunsplit p.scheme p.netloc url p.query p.fragment

/-- Python's `s.split(c)` for a one-character separator: always returns a
nonempty list of the separated pieces (`''.split(c) == ['']`). -/
def pySplitChar (c : Char) : Str → List Str
  | [] => [[]]
  | a :: r =>
      if a = c then [] :: pySplitChar c r
      else
        match pySplitChar c r with
        | s :: ss => (a :: s) :: ss
        | [] => [[a]]

/-- `hostname.split('.')[0]`: the first dot-separated label of a hostname. -/
def firstLabel (h : Str) : Str := (pySplitChar '.' h).headD []

/-- The last dot-separated label of a hostname (its top-level label). -/
def lastLabel (h : Str) : Str := (pySplitChar '.' h).getLastD []

/-- The errors `str.format` can raise on the modelled fragment, plus
`unsupported` marking constructs outside the modelled fragment (conversion
suffixes, format specs, nested fields). -/
inductive FmtError where
  | indexError (n : Nat)
  | valueError
  | keyError (s : Str)
  | unsupported
  deriving DecidableEq, Repr

/-- The field-numbering state of `str.format`: nothing seen yet, automatic
numbering with the next index, or manual numbering. -/
inductive FmtState where
  | init
  | autoNext (n : Nat)
  | manual
  deriving DecidableEq, Repr

/-- Whether the formatter is reading literal text or collecting a field name. -/
inductive FmtMode where
  | lit
  | field (acc : Str)
  deriving DecidableEq, Repr

/-- The numeric value of a string of decimal digits. -/
def digitsToNat (s : Str) : Nat :=
  s.foldl (fun acc c => acc * 10 + (c.toNat - 48)) 0

/-- Resolve one replacement field of `pattern.format(i)` (a single argument):
an empty name is an automatic field (`IndexError` past the first, `ValueError`
after a manual field), a numeric name is a manual field (index 0 is the lone
argument, larger indices raise `IndexError`, mixing with automatic numbering
raises `ValueError`), any other name raises `KeyError`. -/
def resolveField (arg : Str) (st : FmtState) (acc : Str) :
    Except FmtError (Str × FmtState) :=
  if acc = [] then
    match st with
    | .manual => .error .valueError
    | .init => .ok (arg, .autoNext 1)
    | .autoNext n => .error (.indexError n)
  else if acc.all (fun c => decide (c ∈ digitChars)) then
    match st with
    | .autoNext _ => .error .valueError
    | _ =>
        let n := digitsToNat acc
        if n = 0 then .ok (arg, .manual) else .error (.indexError n)
  else .error (.keyError acc)

/-- The scanner of `str.format` with a single argument `arg`: `\x7b\x7b` and
`\x7d\x7d` are brace escapes, `\x7b...\x7d` is a replacement field, a lone
`\x7d` is a `ValueError`, an unterminated field is a `ValueError`, and a `:`,
`!` or nested `\x7b` inside a field is outside the modelled fragment. -/
def fmtRun (arg : Str) : FmtState → FmtMode → Str → Except FmtError Str
  | _, .lit, [] => .ok []
  | _, .field _, [] => .error .valueError
  | st, .lit, '{' :: '{' :: r => (fmtRun arg st .lit r).map (fun t => '{' :: t)
  | st, .lit, '}' :: '}' :: r => (fmtRun arg st .lit r).map (fun t => '}' :: t)
  | st, .lit, '{' :: r => fmtRun arg st (.field []) r
  | _, .lit, '}' :: _ => .error .valueError
  | st, .lit, c :: r => (fmtRun arg st .lit r).map (fun t => c :: t)
  | st, .field acc, '}' :: r =>
      match resolveField arg st acc with
      | .error e => .error e
      | .ok (v, st2) => (fmtRun arg st2 .lit r).map (fun t => v ++ t)
  | st, .field acc, c :: r =>
      if c == ':' || c == '!' || c == '{' then .error .unsupported
      else fmtRun arg st (.field (acc ++ [c])) r

/-- `pattern.format(arg)` for one argument. -/
def pyFormat (pat : Str) (arg : Str) : Except FmtError Str :=
  fmtRun arg .init .lit pat

/-- The number of automatic replacement fields of a pattern built from literal
text, brace escapes and `\x7b\x7d` fields only; `none` for any other pattern
(manual fields, stray braces, field contents). -/
def placeholderCount : Str → Option Nat
  | [] => some 0
  | '{' :: '{' :: r => placeholderCount r
  | '}' :: '}' :: r => placeholderCount r
  | '{' :: '}' :: r => (placeholderCount r).map (fun n => n + 1)
  | '{' :: _ => none
  | '}' :: _ => none
  | _ :: r => placeholderCount r

/-- Modelled from the spec: "the path equals `path_pattern` with the 1-based
index substituted" — substitute `arg` at each automatic field and unescape
the doubled braces. On patterns with at most one automatic field (the ones
`placeholderCount` accepts) this is the spec's single-placeholder
substitution. -/
def spec_subst (arg : Str) : Str → Str
  | [] => []
  | '{' :: '{' :: r => '{' :: spec_subst arg r
  | '}' :: '}' :: r => '}' :: spec_subst arg r
  | '{' :: '}' :: r => arg ++ spec_subst arg r
  | '{' :: r => '{' :: spec_subst arg r
  | '}' :: r => '}' :: spec_subst arg r
  | c :: r => c :: spec_subst arg r

/-- Decimal digit printing: push the digits of `n` (low fuel never runs out,
the fuel starts above `n`). -/
def natStrCore : Nat → Nat → Str → Str
  | 0, _, acc => acc
  | fuel + 1, n, acc =>
      let acc2 := digitChars.getD (n % 10) '0' :: acc
      if n < 10 then acc2 else natStrCore fuel (n / 10) acc2

/-- `str(n)` for a natural number: its decimal digits. -/
def natStr (n : Nat) : Str := natStrCore (n + 1) n []

/-- The default candidate list of `generate_random_tld` (RRL.py line 23). -/
def default_tlds : List Str :=
  ["com".toList, "net".toList, "org".toList, "info".toList, "biz".toList,
   "co".toList, "us".toList, "uk".toList]

/-- The random draws consumed by one call of `generate_random_tld`:
`random.choice([True, False])`, the index drawn by `random.choice(common_tlds)`,
`random.choice([2, 3])`, and the letter indices drawn by
`random.choices(string.ascii_lowercase, k=...)`. Indices are reduced modulo
the size of the sampled population, so every oracle value corresponds to an
outcome the Python generator can produce, and conversely. -/
structure TldRand where
  useCommon : Bool
  commonIdx : Nat
  lenTwo : Bool
  letterIdx : Nat → Nat

/-- `generate_random_tld` (RRL.py lines 11-30): with the first draw, a random
element of the candidate list; otherwise a string of 2 or 3 random lowercase
letters. -/
def generate_random_tld (r : TldRand) (common_tlds : Option (List Str)) : Str :=
  let cs := common_tlds.getD default_tlds
  if r.useCommon then
    cs.getD (r.commonIdx % cs.length) []
  else
    let k : Nat := if r.lenTwo then 2 else 3
    (List.range k).map (fun j => ascii_lowercase.getD (r.letterIdx j % 26) 'a')

/-- The ways a `generate_links` call can raise: the re-raised
`ValueError("Invalid base URL: ...")` from RRL.py lines 47-49, the
`AttributeError` from `parsed_url.hostname.split` when the hostname is `None`
(RRL.py line 51), and an exception escaping `path_pattern.format(i)`
(RRL.py line 55). -/
inductive RunError where
  | invalidURL (u : Str)
  | attributeError
  | formatError (e : FmtError)
  deriving DecidableEq, Repr

/-- The loop body of `generate_links` (RRL.py lines 54-59) over the list of
1-based indices: format the path, draw a TLD, build the new hostname, replace
netloc and path of the parsed base URL and unparse. -/
def genLoop (r : Nat → TldRand) (parsed : ParseResult) (bh : Str) (pat : Str) :
    List Nat → Except FmtError (List Str)
  | [] => .ok []
  | i :: is =>
      match pyFormat pat (natStr i) with
      | .error e => .error e
      | .ok path =>
          let tld := generate_random_tld (r i) none
          match genLoop r parsed bh pat is with
          | .error e => .error e
          | .ok rest =>
              .ok (urlunparse ⟨parsed.scheme, bh ++ '.' :: tld, path,
                parsed.params, parsed.query, parsed.fragment⟩ :: rest)

/-- `generate_links` (RRL.py lines 33-62). `urlparse` failures are re-raised
as `invalidURL`; a `None` hostname makes line 51 raise `attributeError`; the
loop runs over `range(1, num_links + 1)`. -/
def generate_links (r : Nat → TldRand) (base_url : Str) (num_links : Int)
    (path_pattern : Str) : Except RunError (List Str) :=
  match urlparse base_url with
  | .error _ => .error (.invalidURL base_url)
  | .ok parsed =>
      match hostname parsed with
      | none => .error .attributeError
      | some h =>
          match genLoop r parsed (firstLabel h) path_pattern
              ((List.range num_links.toNat).map (fun k => k + 1)) with
          | .error e => .error (.formatError e)
          | .ok links => .ok links

/-- Swap the elements at positions `i` and `j` (`x[i], x[j] = x[j], x[i]`);
out-of-range positions leave the list unchanged (the shuffle loop only uses
in-range positions). -/
def listSwap {α : Type} (l : List α) (i j : Nat) : List α :=
  match l[i]?, l[j]? with
  | some a, some b => (l.set i b).set j a
  | _, _ => l

/-- The Fisher-Yates loop of `random.shuffle`: for `i` from `len(x) - 1`
down to `1`, swap `x[i]` with `x[j]` for a drawn `j` in `[0, i]`. The oracle
value is reduced modulo `i + 1`, the size of `randbelow(i + 1)`'s range. -/
def shuffleSteps {α : Type} (rnd : Nat → Nat) : Nat → List α → List α
  | 0, l => l
  | i + 1, l => shuffleSteps rnd i (listSwap l (i + 1) (rnd (i + 1) % (i + 2)))

/-- `random.shuffle` with an explicit oracle for the drawn positions. -/
def pyShuffle {α : Type} (rnd : Nat → Nat) (l : List α) : List α :=
  shuffleSteps rnd (l.length - 1) l

/-- `randomize_and_generate_links` (RRL.py lines 65-80): generate, then
shuffle in place. -/
def randomize_and_generate_links (r : Nat → TldRand) (sh : Nat → Nat)
    (base_url : Str) (num_links : Int) (path_pattern : Str) :
    Except RunError (List Str) :=
  (generate_links r base_url num_links path_pattern).map (pyShuffle sh)

/-- A fixed TLD oracle: always take the common branch and index 0, so every
drawn TLD is `com`. -/
def tldOracleCom : Nat → TldRand := fun _ => ⟨true, 0, true, fun _ => 0⟩

/-! ### Lemmas about the embedded `str.format` -/

theorem pc_nil : placeholderCount [] = some 0 := rfl

theorem pc_oo (r : Str) : placeholderCount ('{' :: '{' :: r) = placeholderCount r := rfl

theorem pc_cc (r : Str) : placeholderCount ('}' :: '}' :: r) = placeholderCount r := rfl

theorem pc_oc (r : Str) : placeholderCount ('{' :: '}' :: r) =
    (placeholderCount r).map (fun n => n + 1) := rfl

theorem pc_open_none (tail : Str) (h1 : ∀ r, tail ≠ '{' :: r)
    (h2 : ∀ r, tail ≠ '}' :: r) : placeholderCount ('{' :: tail) = none := by
  cases tail with
  | nil => rfl
  | cons a r =>
      have ha1 : a ≠ '{' := fun hh => h1 r (by rw [hh])
      have ha2 : a ≠ '}' := fun hh => h2 r (by rw [hh])
      rw [placeholderCount.eq_def]
      split <;> (try simp_all [Except.map]) <;> simp_all [eq_comm]

theorem pc_close_none (tail : Str) (h2 : ∀ r, tail ≠ '}' :: r) :
    placeholderCount ('}' :: tail) = none := by
  cases tail with
  | nil => rfl
  | cons a r =>
      have ha2 : a ≠ '}' := fun hh => h2 r (by rw [hh])
      rw [placeholderCount.eq_def]
      split <;> (try simp_all [Except.map]) <;> simp_all [eq_comm]

theorem pc_other (c : Char) (r : Str) (h1 : c ≠ '{') (h2 : c ≠ '}') :
    placeholderCount (c :: r) = placeholderCount r := by
  rw [placeholderCount.eq_def]
  split <;> (try simp_all [Except.map]) <;> simp_all [eq_comm]

theorem fmtRun_lit_oo (arg : Str) (st : FmtState) (r : Str) :
    fmtRun arg st .lit ('{' :: '{' :: r) =
      (fmtRun arg st .lit r).map (fun t => '{' :: t) := rfl

theorem fmtRun_lit_cc (arg : Str) (st : FmtState) (r : Str) :
    fmtRun arg st .lit ('}' :: '}' :: r) =
      (fmtRun arg st .lit r).map (fun t => '}' :: t) := rfl

theorem fmtRun_lit_open (arg : Str) (st : FmtState) (r : Str)
    (h1 : ∀ r2, r ≠ '{' :: r2) :
    fmtRun arg st .lit ('{' :: r) = fmtRun arg st (.field []) r := by
  cases r with
  | nil => rfl
  | cons a r2 =>
      have ha1 : a ≠ '{' := fun hh => h1 r2 (by rw [hh])
      rw [fmtRun.eq_def]
      split <;> (try simp_all [Except.map]) <;> simp_all [eq_comm]

theorem fmtRun_lit_other (arg : Str) (st : FmtState) (c : Char) (r : Str)
    (h1 : c ≠ '{') (h2 : c ≠ '}') :
    fmtRun arg st .lit (c :: r) = (fmtRun arg st .lit r).map (fun t => c :: t) := by
  rw [fmtRun.eq_def]
  split <;> (try simp_all [Except.map]) <;> simp_all [eq_comm]

theorem fmtRun_field_close (arg : Str) (st : FmtState) (acc : Str) (r : Str) :
    fmtRun arg st (.field acc) ('}' :: r) =
      match resolveField arg st acc with
      | .error e => .error e
      | .ok (v, st2) => (fmtRun arg st2 .lit r).map (fun t => v ++ t) := rfl

theorem ss_nil (arg : Str) : spec_subst arg [] = [] := rfl

theorem ss_oo (arg : Str) (r : Str) :
    spec_subst arg ('{' :: '{' :: r) = '{' :: spec_subst arg r := rfl

theorem ss_cc (arg : Str) (r : Str) :
    spec_subst arg ('}' :: '}' :: r) = '}' :: spec_subst arg r := rfl

theorem ss_oc (arg : Str) (r : Str) :
    spec_subst arg ('{' :: '}' :: r) = arg ++ spec_subst arg r := rfl

theorem ss_other (arg : Str) (c : Char) (r : Str) (h1 : c ≠ '{') (h2 : c ≠ '}') :
    spec_subst arg (c :: r) = c :: spec_subst arg r := by
  rw [spec_subst.eq_def]
  split <;> (try simp_all) <;> simp_all [eq_comm]

theorem fmt_count0 (arg : Str) (p : Str) (h : placeholderCount p = some 0) :
    ∀ st, fmtRun arg st .lit p = .ok (spec_subst arg p) := by
  induction p using placeholderCount.induct with
  | case1 => intro st; simp [fmtRun, spec_subst]
  | case2 r ih =>
      intro st
      rw [pc_oo] at h
      rw [fmtRun_lit_oo, ih h st]
      simp [spec_subst, Except.map]
  | case3 r ih =>
      intro st
      rw [pc_cc] at h
      rw [fmtRun_lit_cc, ih h st]
      simp [spec_subst, Except.map]
  | case4 r ih =>
      rw [pc_oc] at h
      cases hc : placeholderCount r <;> simp [hc] at h
  | case5 tail h1 h2 =>
      rw [pc_open_none tail h1 h2] at h
      exact absurd h (by simp)
  | case6 tail h2 =>
      rw [pc_close_none tail h2] at h
      exact absurd h (by simp)
  | case7 c r h1 h2 h3 h4 h5 ih =>
      intro st
      have hc1 : c ≠ '{' := fun hh => h4 hh
      have hc2 : c ≠ '}' := fun hh => h5 hh
      rw [pc_other c r hc1 hc2] at h
      rw [fmtRun_lit_other arg st c r hc1 hc2, ih h st, ss_other arg c r hc1 hc2]
      simp [Except.map]

theorem fmt_le1 (arg : Str) (p : Str) (k : Nat) (h : placeholderCount p = some k)
    (hk : k ≤ 1) : fmtRun arg .init .lit p = .ok (spec_subst arg p) := by
  induction p using placeholderCount.induct generalizing k with
  | case1 => simp [fmtRun, spec_subst]
  | case2 r ih =>
      rw [pc_oo] at h
      rw [fmtRun_lit_oo, ih k h hk, ss_oo]
      simp [Except.map]
  | case3 r ih =>
      rw [pc_cc] at h
      rw [fmtRun_lit_cc, ih k h hk, ss_cc]
      simp [Except.map]
  | case4 r ih =>
      rw [pc_oc] at h
      cases hc : placeholderCount r with
      | none => rw [hc] at h; exact absurd h (by simp)
      | some n =>
          rw [hc] at h
          have hn : n = 0 := by
            have hkn : n + 1 = k := by simpa using h
            omega
          subst hn
          rw [fmtRun_lit_open arg _ _ (fun r2 hh => by simp at hh), fmtRun_field_close]
          have hres : resolveField arg .init [] = .ok (arg, .autoNext 1) := rfl
          rw [hres]
          simp only [fmt_count0 arg r hc (.autoNext 1), ss_oc, Except.map]
  | case5 tail h1 h2 =>
      rw [pc_open_none tail h1 h2] at h
      exact absurd h (by simp)
  | case6 tail h2 =>
      rw [pc_close_none tail h2] at h
      exact absurd h (by simp)
  | case7 c r h1 h2 h3 h4 h5 ih =>
      have hc1 : c ≠ '{' := fun hh => h4 hh
      have hc2 : c ≠ '}' := fun hh => h5 hh
      rw [pc_other c r hc1 hc2] at h
      rw [fmtRun_lit_other arg _ c r hc1 hc2, ih k h hk, ss_other arg c r hc1 hc2]
      simp [Except.map]

theorem fmt_auto_err (arg : Str) (p : Str) (k : Nat)
    (h : placeholderCount p = some k) (hk : 1 ≤ k) (n : Nat) (hn : 1 ≤ n) :
    fmtRun arg (.autoNext n) .lit p = .error (.indexError n) := by
  induction p using placeholderCount.induct generalizing k with
  | case1 =>
      rw [pc_nil] at h
      have h0 : (0 : Nat) = k := Option.some.inj h
      omega
  | case2 r ih =>
      rw [pc_oo] at h
      rw [fmtRun_lit_oo, ih k h hk]
      simp [Except.map]
  | case3 r ih =>
      rw [pc_cc] at h
      rw [fmtRun_lit_cc, ih k h hk]
      simp [Except.map]
  | case4 r ih =>
      rw [fmtRun_lit_open arg _ _ (fun r2 hh => by simp at hh), fmtRun_field_close]
      have hres : resolveField arg (.autoNext n) [] = .error (.indexError n) := by
        simp [resolveField]
      rw [hres]
  | case5 tail h1 h2 =>
      rw [pc_open_none tail h1 h2] at h
      exact absurd h (by simp)
  | case6 tail h2 =>
      rw [pc_close_none tail h2] at h
      exact absurd h (by simp)
  | case7 c r h1 h2 h3 h4 h5 ih =>
      have hc1 : c ≠ '{' := fun hh => h4 hh
      have hc2 : c ≠ '}' := fun hh => h5 hh
      rw [pc_other c r hc1 hc2] at h
      rw [fmtRun_lit_other arg _ c r hc1 hc2, ih k h hk]
      simp [Except.map]

theorem fmt_ge2_err (arg : Str) (p : Str) (k : Nat)
    (h : placeholderCount p = some k) (hk : 2 ≤ k) :
    fmtRun arg .init .lit p = .error (.indexError 1) := by
  induction p using placeholderCount.induct generalizing k with
  | case1 =>
      rw [pc_nil] at h
      have : k = 0 := (Option.some.inj h).symm
      omega
  | case2 r ih =>
      rw [pc_oo] at h
      rw [fmtRun_lit_oo, ih k h hk]
      simp [Except.map]
  | case3 r ih =>
      rw [pc_cc] at h
      rw [fmtRun_lit_cc, ih k h hk]
      simp [Except.map]
  | case4 r ih =>
      rw [pc_oc] at h
      cases hc : placeholderCount r with
      | none => rw [hc] at h; exact absurd h (by simp)
      | some n =>
          rw [hc] at h
          have hn : 1 ≤ n := by
            have hkn : n + 1 = k := by simpa using h
            omega
          rw [fmtRun_lit_open arg _ _ (fun r2 hh => by simp at hh), fmtRun_field_close]
          have hres : resolveField arg .init [] = .ok (arg, .autoNext 1) := rfl
          rw [hres]
          simp only [fmt_auto_err arg r n hc hn 1 (by omega), Except.map]
  | case5 tail h1 h2 =>
      rw [pc_open_none tail h1 h2] at h
      exact absurd h (by simp)
  | case6 tail h2 =>
      rw [pc_close_none tail h2] at h
      exact absurd h (by simp)
  | case7 c r h1 h2 h3 h4 h5 ih =>
      have hc1 : c ≠ '{' := fun hh => h4 hh
      have hc2 : c ≠ '}' := fun hh => h5 hh
      rw [pc_other c r hc1 hc2] at h
      rw [fmtRun_lit_other arg _ c r hc1 hc2, ih k h hk]
      simp [Except.map]


/-! ### Lemmas about the generation loop, the TLD selector and the shuffle -/

theorem genLoop_ok (r : Nat → TldRand) (parsed : ParseResult) (bh pat : Str)
    (f : Nat → Str) (is : List Nat)
    (hf : ∀ i ∈ is, pyFormat pat (natStr i) = .ok (f i)) :
    genLoop r parsed bh pat is =
      .ok (is.map (fun i => urlunparse ⟨parsed.scheme,
        bh ++ '.' :: generate_random_tld (r i) none, f i,
        parsed.params, parsed.query, parsed.fragment⟩)) := by
  induction is with
  | nil => rfl
  | cons i tl ih =>
      have hi := hf i (List.mem_cons_self i tl)
      have ih2 := ih (fun j hj => hf j (List.mem_cons_of_mem i hj))
      simp only [genLoop, hi, ih2, List.map_cons]

theorem genLoop_err (r : Nat → TldRand) (parsed : ParseResult) (bh pat : Str)
    (i : Nat) (is : List Nat) (e : FmtError)
    (he : pyFormat pat (natStr i) = .error e) :
    genLoop r parsed bh pat (i :: is) = .error e := by
  simp only [genLoop, he]

theorem getD_mod_mem {α : Type} (l : List α) (d : α) (i : Nat) (h : l ≠ []) :
    l.getD (i % l.length) d ∈ l := by
  have hlt : i % l.length < l.length := Nat.mod_lt _ (List.length_pos.mpr h)
  rw [List.getD_eq_getElem?_getD, List.getElem?_eq_getElem hlt]
  exact List.getElem_mem hlt

/-- The property the spec states for TLD selector outputs: a member of the
default candidate list, or a string of 2 or 3 lowercase ASCII letters. -/
def tldOkB (t : Str) : Bool :=
  decide (t ∈ default_tlds) ||
    ((t.length == 2 || t.length == 3) && t.all (fun c => decide (c ∈ ascii_lowercase)))

theorem tld_mem_default (t : Str) (h : t ∈ default_tlds) : tldOkB t = true := by
  unfold tldOkB
  simp [h]

theorem tld_synth_ok (g : Nat → Char) (hg : ∀ j, g j ∈ ascii_lowercase)
    (k : Nat) (hk : k = 2 ∨ k = 3) : tldOkB ((List.range k).map g) = true := by
  unfold tldOkB
  rw [Bool.or_eq_true]
  right
  rw [Bool.and_eq_true]
  constructor
  · rcases hk with h | h <;> subst h <;> simp
  · rw [List.all_eq_true]
    intro c hc
    rw [List.mem_map] at hc
    obtain ⟨j, hj, hgj⟩ := hc
    rw [← hgj]
    exact decide_eq_true (hg j)

theorem tld_letter_mem (r : TldRand) (j : Nat) :
    ascii_lowercase.getD (r.letterIdx j % 26) 'a' ∈ ascii_lowercase := by
  have hlt : r.letterIdx j % 26 < ascii_lowercase.length := Nat.mod_lt _ (by decide)
  rw [List.getD_eq_getElem?_getD, List.getElem?_eq_getElem hlt]
  exact List.getElem_mem hlt

theorem tld_ok (r : TldRand) : tldOkB (generate_random_tld r none) = true := by
  unfold generate_random_tld
  rw [Option.getD_none]
  cases hu : r.useCommon with
  | true =>
      rw [if_pos rfl]
      exact tld_mem_default _ (getD_mod_mem _ _ _ (by decide))
  | false =>
      rw [if_neg (by simp)]
      exact tld_synth_ok _ (tld_letter_mem r) _ (by cases r.lenTwo <;> simp)

theorem tld_lower (r : TldRand) :
    ∀ c ∈ generate_random_tld r none, c ∈ ascii_lowercase := by
  have h := tld_ok r
  unfold tldOkB at h
  rcases Bool.or_eq_true_iff.mp h with hm | hs
  · have hmem : generate_random_tld r none ∈ default_tlds := of_decide_eq_true hm
    have hd : ∀ t ∈ default_tlds, ∀ c ∈ t, c ∈ ascii_lowercase := by decide
    exact hd _ hmem
  · intro c hc
    have h2 := (Bool.and_eq_true_iff.mp hs).2
    rw [List.all_eq_true] at h2
    exact of_decide_eq_true (h2 c hc)

theorem tld_ne_nil (r : TldRand) : generate_random_tld r none ≠ [] := by
  have h := tld_ok r
  unfold tldOkB at h
  rcases Bool.or_eq_true_iff.mp h with hm | hs
  · have hmem : generate_random_tld r none ∈ default_tlds := of_decide_eq_true hm
    have hd : ∀ t ∈ default_tlds, t ≠ [] := by decide
    exact hd _ hmem
  · have h1 := (Bool.and_eq_true_iff.mp hs).1
    intro hnil
    rw [hnil] at h1
    simp at h1

theorem listSwap_perm {α : Type} [DecidableEq α] (l : List α) (i j : Nat) :
    List.Perm (listSwap l i j) l := by
  unfold listSwap
  cases hi : l[i]? with
  | none => exact List.Perm.refl l
  | some a =>
      cases hj : l[j]? with
      | none => exact List.Perm.refl l
      | some b =>
          obtain ⟨hil, hia⟩ := List.getElem?_eq_some_iff.mp hi
          obtain ⟨hjl, hjb⟩ := List.getElem?_eq_some_iff.mp hj
          have hjl2 : j < (l.set i b).length := by
            rw [List.length_set]; exact hjl
          rw [List.perm_iff_count]
          intro x
          rw [List.count_set _ _ _ _ hjl2, List.count_set _ _ _ _ hil]
          have hsetj : (l.set i b)[j] = b := by
            rw [List.getElem_set]
            split <;> simp [hjb]
          rw [hsetj]
          have hA : (if l[i] == x then 1 else 0) ≤ l.count x := by
            split
            · rename_i hbeq
              have hx : x ∈ l := by
                rw [← eq_of_beq hbeq]
                exact List.getElem_mem hil
              exact List.count_pos_iff.mpr hx
            · exact Nat.zero_le _
          have haA : (if a == x then 1 else 0) = (if l[i] == x then 1 else 0) := by
            rw [hia]
          rw [haA]
          have h01 : (if l[i] == x then 1 else 0) ≤ 1 := by split <;> simp
          have h01b : (if b == x then 1 else 0) ≤ 1 := by split <;> simp
          omega

theorem shuffleSteps_perm {α : Type} [DecidableEq α] (rnd : Nat → Nat)
    (n : Nat) (l : List α) : List.Perm (shuffleSteps rnd n l) l := by
  induction n generalizing l with
  | zero => exact List.Perm.refl l
  | succ i ih =>
      exact (ih _).trans (listSwap_perm l (i + 1) (rnd (i + 1) % (i + 2)))

theorem pyShuffle_perm {α : Type} [DecidableEq α] (rnd : Nat → Nat)
    (l : List α) : List.Perm (pyShuffle rnd l) l :=
  shuffleSteps_perm rnd (l.length - 1) l

theorem pyShuffle_short {α : Type} (rnd : Nat → Nat) (l : List α)
    (h : l.length ≤ 1) : pyShuffle rnd l = l := by
  unfold pyShuffle
  have h0 : l.length - 1 = 0 := by omega
  rw [h0]
  rfl


/-! ### Generic list helpers -/

theorem takeWhile_all {α : Type} (p : α → Bool) (l : List α)
    (h : ∀ c ∈ l, p c = true) : l.takeWhile p = l := by
  induction l with
  | nil => rfl
  | cons a r ih =>
      rw [List.takeWhile_cons, if_pos (h a (by simp))]
      rw [ih (fun c hc => h c (by simp [hc]))]

theorem dropWhile_all {α : Type} (p : α → Bool) (l : List α)
    (h : ∀ c ∈ l, p c = true) : l.dropWhile p = [] := by
  induction l with
  | nil => rfl
  | cons a r ih =>
      rw [List.dropWhile_cons, if_pos (h a (by simp))]
      exact ih (fun c hc => h c (by simp [hc]))

theorem dropWhile_head_false {α : Type} {p : α → Bool} {l : List α} {a : α}
    {r : List α} (h : l.dropWhile p = a :: r) : p a = false := by
  induction l with
  | nil => simp at h
  | cons b t ih =>
      rw [List.dropWhile_cons] at h
      by_cases hb : p b = true
      · rw [if_pos hb] at h
        exact ih h
      · rw [if_neg hb] at h
        cases h
        exact Bool.eq_false_iff.mpr hb

theorem mem_takeWhile_sat {α : Type} {p : α → Bool} {l : List α} {x : α}
    (h : x ∈ l.takeWhile p) : p x = true := by
  induction l with
  | nil => simp at h
  | cons a r ih =>
      rw [List.takeWhile_cons] at h
      by_cases ha : p a = true
      · rw [if_pos ha] at h
        rcases List.mem_cons.mp h with rfl | h2
        · exact ha
        · exact ih h2
      · rw [if_neg ha] at h
        simp at h

theorem mem_takeWhile_mem {α : Type} {p : α → Bool} {l : List α} {x : α}
    (h : x ∈ l.takeWhile p) : x ∈ l :=
  (List.takeWhile_sublist p).subset h

theorem mem_dropWhile_mem {α : Type} {p : α → Bool} {l : List α} {x : α}
    (h : x ∈ l.dropWhile p) : x ∈ l :=
  (List.dropWhile_sublist p).subset h

theorem map_id_of {α : Type} (f : α → α) (l : List α)
    (h : ∀ c ∈ l, f c = c) : l.map f = l := by
  induction l with
  | nil => rfl
  | cons a r ih =>
      rw [List.map_cons, h a (by simp), ih (fun c hc => h c (by simp [hc]))]

/-! ### Lemmas about splitOnce, pySplitChar and the netloc host/port -/

theorem splitOnce_not_mem (c : Char) (s : Str) (h : c ∉ s) :
    splitOnce c s = (s, none) := by
  unfold splitOnce
  have hall : ∀ d ∈ s, (d != c) = true := by
    intro d hd
    have : d ≠ c := fun he => h (he ▸ hd)
    simpa using this
  rw [dropWhile_all _ _ hall]

theorem splitOnce_found (c : Char) (a b : Str) (h : c ∉ a) :
    splitOnce c (a ++ c :: b) = (a, some b) := by
  unfold splitOnce
  have hall : ∀ d ∈ a, (d != c) = true := by
    intro d hd
    have : d ≠ c := fun he => h (he ▸ hd)
    simpa using this
  rw [List.dropWhile_append_of_pos hall, List.takeWhile_append_of_pos hall]
  rw [List.dropWhile_cons, List.takeWhile_cons]
  simp

theorem splitOnce_fst_not_mem (c : Char) (s : Str) : c ∉ (splitOnce c s).1 := by
  unfold splitOnce
  cases hd : s.dropWhile (fun d => d != c) with
  | nil =>
      intro hc
      have h2 := List.dropWhile_eq_nil_iff.mp hd c hc
      simp at h2
  | cons a r =>
      intro hc
      have h2 := mem_takeWhile_sat hc
      simp at h2

theorem splitOnce_snd_mem (c : Char) (s : Str) (r : Str)
    (h : (splitOnce c s).2 = some r) : ∀ x ∈ r, x ∈ s := by
  unfold splitOnce at h
  cases hd : s.dropWhile (fun d => d != c) with
  | nil => rw [hd] at h; simp at h
  | cons a t =>
      rw [hd] at h
      simp only [Option.some.injEq] at h
      subst h
      intro x hx
      have : x ∈ s.dropWhile (fun d => d != c) := by
        rw [hd]; exact List.mem_cons_of_mem a hx
      exact mem_dropWhile_mem this

theorem splitOnce_fst_mem (c : Char) (s : Str) :
    ∀ x ∈ (splitOnce c s).1, x ∈ s := by
  unfold splitOnce
  cases hd : s.dropWhile (fun d => d != c) with
  | nil => intro x hx; exact hx
  | cons a t => intro x hx; exact mem_takeWhile_mem hx


theorem pySplitChar_ne_nil (c : Char) (s : Str) : pySplitChar c s ≠ [] := by
  cases s with
  | nil => simp [pySplitChar]
  | cons a r =>
      unfold pySplitChar
      by_cases ha : a = c
      · rw [if_pos ha]; simp
      · rw [if_neg ha]
        cases h2 : pySplitChar c r with
        | nil => simp
        | cons x xs => simp

theorem pySplitChar_not_mem (c : Char) (s : Str) (h : c ∉ s) :
    pySplitChar c s = [s] := by
  induction s with
  | nil => rfl
  | cons a r ih =>
      have ha : a ≠ c := fun he => h (by simp [he])
      have hr : c ∉ r := fun hm => h (by simp [hm])
      unfold pySplitChar
      rw [if_neg ha, ih hr]

theorem pySplitChar_append (c : Char) (a b : Str) (h : c ∉ a) :
    pySplitChar c (a ++ c :: b) = a :: pySplitChar c b := by
  induction a with
  | nil =>
      simp only [List.nil_append]
      unfold pySplitChar
      rw [if_pos rfl]
      rw [← pySplitChar.eq_def]
  | cons x xs ih =>
      have hx : x ≠ c := fun he => h (by simp [he])
      have hxs : c ∉ xs := fun hm => h (by simp [hm])
      rw [List.cons_append]
      unfold pySplitChar
      rw [if_neg hx, ih hxs]
      rw [← pySplitChar.eq_def]

theorem firstLabel_eq_takeWhile (h : Str) :
    firstLabel h = h.takeWhile (fun c => c != '.') := by
  induction h with
  | nil => rfl
  | cons a r ih =>
      unfold firstLabel pySplitChar
      by_cases ha : a = '.'
      · rw [if_pos ha]
        subst ha
        simp [List.takeWhile_cons]
      · rw [if_neg ha]
        cases h2 : pySplitChar '.' r with
        | nil => exact absurd h2 (pySplitChar_ne_nil '.' r)
        | cons x xs =>
            unfold firstLabel at ih
            rw [h2] at ih
            simp only [List.headD_cons] at ih
            rw [List.takeWhile_cons, if_pos (by simpa using ha)]
            simp [ih]

theorem firstLabel_whole (h : Str) (hn : '.' ∉ h) : firstLabel h = h := by
  unfold firstLabel
  rw [pySplitChar_not_mem '.' h hn]
  rfl

theorem firstLabel_split (bh tld : Str) (h1 : '.' ∉ bh) :
    firstLabel (bh ++ '.' :: tld) = bh := by
  unfold firstLabel
  rw [pySplitChar_append '.' bh tld h1]
  rfl

theorem lastLabel_split (bh tld : Str) (h1 : '.' ∉ bh) (h2 : '.' ∉ tld) :
    lastLabel (bh ++ '.' :: tld) = tld := by
  unfold lastLabel
  rw [pySplitChar_append '.' bh tld h1, pySplitChar_not_mem '.' tld h2]
  rfl

theorem firstLabel_not_dot (h : Str) : '.' ∉ firstLabel h := by
  rw [firstLabel_eq_takeWhile]
  intro hm
  have h2 := mem_takeWhile_sat hm
  simp at h2

theorem hostAfterAt_no_at (nl : Str) (h : '@' ∉ nl) : hostAfterAt nl = nl := by
  unfold hostAfterAt
  rw [takeWhile_all _ _ (by
    intro d hd
    have hdm : d ∈ nl := List.mem_reverse.mp hd
    have : d ≠ '@' := fun he => h (he ▸ hdm)
    simpa using this)]
  exact List.reverse_reverse nl

theorem hostRaw_plain (nl : Str) (h1 : '@' ∉ nl) (h2 : '[' ∉ nl)
    (h3 : ':' ∉ nl) : hostRaw nl = nl := by
  unfold hostRaw
  rw [hostAfterAt_no_at nl h1]
  rw [if_neg h2]
  exact takeWhile_all _ _ (by
    intro d hd
    have : d ≠ ':' := fun he => h3 (he ▸ hd)
    simpa using this)

theorem portRaw_plain (nl : Str) (h1 : '@' ∉ nl) (h2 : '[' ∉ nl)
    (h3 : ':' ∉ nl) : portRaw nl = none := by
  unfold portRaw
  rw [hostAfterAt_no_at nl h1]
  have hdw : nl.dropWhile (fun c => c != ':') = [] := dropWhile_all _ _ (by
    intro d hd
    have hne : d ≠ ':' := fun he => h3 (he ▸ hd)
    simpa using hne)
  simp [if_neg h2, hdw]

theorem lowerStr_fix (s : Str) (h : ∀ c ∈ s, lowerChar c = c) : lowerStr s = s :=
  map_id_of lowerChar s h


/-! ### Character classes of the hostnames and schemes the round-trip
lemmas cover, and their decidable facts -/

/-- Ordinary DNS-style hostname-label characters: lowercase letters, digits,
hyphen and underscore. -/
def hostChars : Str := "abcdefghijklmnopqrstuvwxyz0123456789-_".toList

/-- Characters a generated netloc may contain: label characters plus the dot. -/
def netlocChars : Str := "abcdefghijklmnopqrstuvwxyz0123456789-_.".toList

/-- Characters of an already-lowercased scheme. -/
def lowSchemeChars : Str := "abcdefghijklmnopqrstuvwxyz0123456789+-.".toList

/-- Shape of a scheme as returned by `urlsplit`: empty, or a lowercase letter
followed by lowercased scheme characters. -/
def schemeOkB : Str → Bool
  | [] => true
  | c :: cs => decide (c ∈ ascii_lowercase) &&
      cs.all (fun d => decide (d ∈ lowSchemeChars))

theorem hostChars_sub (c : Char) (h : c ∈ hostChars) : c ∈ netlocChars := by
  revert h
  revert c
  decide

theorem lower_sub_host (c : Char) (h : c ∈ ascii_lowercase) : c ∈ hostChars := by
  revert h
  revert c
  decide

theorem netlocChars_facts (c : Char) (h : c ∈ netlocChars) :
    netlocStop c = false ∧ unsafeChar c = false ∧ lowerChar c = c ∧
      c ≠ '[' ∧ c ≠ ']' ∧ c ≠ '@' ∧ c ≠ ':' ∧ c ≠ '#' ∧ c ≠ '?' := by
  revert h
  revert c
  decide

theorem hostChars_not_dot (c : Char) (h : c ∈ hostChars) : c ≠ '.' := by
  revert h
  revert c
  decide

theorem lowerChars_facts (c : Char) (h : c ∈ ascii_lowercase) :
    c ∈ asciiLetters ∧ c0OrSpace c = false ∧ c ≠ ':' ∧ unsafeChar c = false ∧
      c ∈ lowSchemeChars ∧ c ≠ '.' := by
  revert h
  revert c
  decide

theorem lowSchemeChars_facts (c : Char) (h : c ∈ lowSchemeChars) :
    c ≠ ':' ∧ unsafeChar c = false ∧ lowerChar c = c ∧ c ∈ schemeChars := by
  revert h
  revert c
  decide

theorem asciiLetters_lower (c : Char) (h : c ∈ asciiLetters) :
    lowerChar c ∈ ascii_lowercase := by
  revert h
  revert c
  decide

theorem schemeChars_lower (c : Char) (h : c ∈ schemeChars) :
    lowerChar c ∈ lowSchemeChars := by
  revert h
  revert c
  decide

theorem schemeOkB_cons (c : Char) (cs : Str) (h : schemeOkB (c :: cs) = true) :
    c ∈ ascii_lowercase ∧ ∀ d ∈ cs, d ∈ lowSchemeChars := by
  unfold schemeOkB at h
  rw [Bool.and_eq_true] at h
  refine ⟨of_decide_eq_true h.1, ?_⟩
  intro d hd
  exact of_decide_eq_true ((List.all_eq_true.mp h.2) d hd)


/-! ### Lemmas about splitScheme and the scheme invariant of urlsplit -/

theorem splitScheme_ok (url : Str) : schemeOkB ((splitScheme url).1) = true := by
  unfold splitScheme
  dsimp only
  cases hpost : url.dropWhile (fun c => c != ':') with
  | nil => rfl
  | cons d r =>
      have hdc := dropWhile_head_false hpost
      have hdc2 : d = ':' := by simpa using hdc
      subst hdc2
      cases hpre : url.takeWhile (fun c => c != ':') with
      | nil => rfl
      | cons c cs =>
          by_cases hcond : c ∈ asciiLetters ∧ (cs.all fun d => decide (d ∈ schemeChars)) = true
          · simp only [if_pos hcond]
            unfold lowerStr
            rw [List.map_cons]
            unfold schemeOkB
            rw [Bool.and_eq_true]
            constructor
            · exact decide_eq_true (asciiLetters_lower c hcond.1)
            · rw [List.all_map, List.all_eq_true]
              intro d hd
              have hds : d ∈ schemeChars :=
                of_decide_eq_true ((List.all_eq_true.mp hcond.2) d hd)
              exact decide_eq_true (schemeChars_lower d hds)
          · simp only [if_neg hcond]
            rfl

theorem splitScheme_of_scheme (c : Char) (cs rest : Str)
    (hok : schemeOkB (c :: cs) = true) :
    splitScheme ((c :: cs) ++ ':' :: rest) = (c :: cs, rest) := by
  obtain ⟨hc, hcs⟩ := schemeOkB_cons c cs hok
  have hnc : ∀ d ∈ c :: cs, (d != ':') = true := by
    intro d hd
    rcases List.mem_cons.mp hd with rfl | hd2
    · simpa using (lowerChars_facts d hc).2.2.1
    · simpa using (lowSchemeChars_facts d (hcs d hd2)).1
  unfold splitScheme
  rw [List.takeWhile_append_of_pos hnc, List.dropWhile_append_of_pos hnc]
  rw [List.takeWhile_cons, List.dropWhile_cons]
  simp only [bne_self_eq_false, Bool.false_eq_true, if_false, List.append_nil]
  rw [if_pos ?hcond]
  case hcond =>
      constructor
      · exact (lowerChars_facts c hc).1
      · rw [List.all_eq_true]
        intro d hd
        exact decide_eq_true (lowSchemeChars_facts d (hcs d hd)).2.2.2
  have hfix : lowerStr (c :: cs) = c :: cs := by
    apply lowerStr_fix
    intro d hd
    rcases List.mem_cons.mp hd with rfl | hd2
    · exact (netlocChars_facts d (hostChars_sub d (lower_sub_host d hc))).2.2.1
    · exact (lowSchemeChars_facts d (hcs d hd2)).2.2.1
  rw [hfix]

theorem splitScheme_slash (rest : Str) :
    splitScheme ('/' :: rest) = ([], '/' :: rest) := by
  unfold splitScheme
  rw [List.takeWhile_cons, List.dropWhile_cons]
  simp only [show (('/' : Char) != ':') = true by decide, if_true]
  cases hd : rest.dropWhile (fun d => d != ':') with
  | nil => rfl
  | cons d r =>
      have hdc := dropWhile_head_false hd
      have hdc2 : d = ':' := by simpa using hdc
      subst hdc2
      simp only [if_neg (show ¬ (('/' : Char) ∈ asciiLetters ∧
        ((List.takeWhile (fun c => c != ':') rest).all fun d =>
          decide (d ∈ schemeChars)) = true) from fun hcontra =>
            absurd hcontra.1 (by decide))]


/-! ### Round-trip of urlunsplit output through urlsplit -/

/-- The leading-slash padding `urlunsplit` applies to the path when a netloc
is present. -/
def slashPad (url : Str) : Str :=
  if url ≠ [] ∧ url.take 1 ≠ ['/'] then '/' :: url else url

/-- Everything `urlunsplit` places after the netloc: padded path, then
`?query` and `#fragment` when nonempty. -/
def tailOf (url query fragment : Str) : Str :=
  let t1 := if query ≠ [] then slashPad url ++ '?' :: query else slashPad url
  if fragment ≠ [] then t1 ++ '#' :: fragment else t1

/-- The scheme part of an assembled URL: `scheme:` when nonempty. -/
def schemePre (s : Str) : Str := if s = [] then [] else s ++ [':']

theorem urlunsplit_decomp (scheme nl url query fragment : Str) (hnl : nl ≠ []) :
    urlunsplit scheme nl url query fragment =
      schemePre scheme ++ '/' :: '/' :: nl ++ tailOf url query fragment := by
  unfold urlunsplit tailOf schemePre
  rw [if_pos (Or.inl hnl)]
  by_cases hs : scheme = [] <;> by_cases hq : query = [] <;>
    by_cases hf : fragment = [] <;>
      simp [hs, hq, hf, slashPad, List.append_assoc]

theorem slashPad_head (url : Str) :
    slashPad url = [] ∨ ∃ r, slashPad url = '/' :: r := by
  unfold slashPad
  by_cases h : url ≠ [] ∧ url.take 1 ≠ ['/']
  · rw [if_pos h]
    exact Or.inr ⟨url, rfl⟩
  · rw [if_neg h]
    push_neg at h
    cases hu : url with
    | nil => exact Or.inl rfl
    | cons a r =>
        have h2 := h (by simp [hu])
        rw [hu] at h2
        have ha : a = '/' := by simpa using h2
        exact Or.inr ⟨r, by rw [ha]⟩

theorem tailOf_head (url query fragment : Str) :
    tailOf url query fragment = [] ∨
      ∃ c r, tailOf url query fragment = c :: r ∧ netlocStop c = true := by
  unfold tailOf
  rcases slashPad_head url with hp | ⟨r, hp⟩ <;>
    by_cases hq : query = [] <;> by_cases hf : fragment = [] <;>
      simp [hp, hq, hf, netlocStop]


theorem schemePre_safeChars (scheme : Str) (hsch : schemeOkB scheme = true) :
    ∀ c ∈ schemePre scheme, unsafeChar c = false := by
  unfold schemePre
  cases scheme with
  | nil => simp
  | cons c cs =>
      rw [if_neg (by simp)]
      obtain ⟨hc, hcs⟩ := schemeOkB_cons c cs hsch
      intro d hd
      rcases List.mem_append.mp hd with hd1 | hd2
      · rcases List.mem_cons.mp hd1 with rfl | hd3
        · exact (lowerChars_facts d hc).2.2.2.1
        · exact (lowSchemeChars_facts d (hcs d hd3)).2.1
      · have hdc : d = ':' := by simpa using hd2
        subst hdc
        decide

theorem cleanUrl_shape (scheme nl t : Str) (hsch : schemeOkB scheme = true)
    (hnl2 : ∀ c ∈ nl, c ∈ netlocChars) :
    cleanUrl (schemePre scheme ++ '/' :: '/' :: nl ++ t) =
      schemePre scheme ++ '/' :: '/' :: nl ++ t.filter (fun c => !unsafeChar c) := by
  unfold cleanUrl
  have hdrop : (schemePre scheme ++ '/' :: '/' :: nl ++ t).dropWhile c0OrSpace =
      schemePre scheme ++ '/' :: '/' :: nl ++ t := by
    cases hs : scheme with
    | nil =>
        simp [schemePre, List.dropWhile_cons, show c0OrSpace '/' = false by decide]
    | cons c cs =>
        have hc : c ∈ ascii_lowercase := (schemeOkB_cons c cs (hs ▸ hsch)).1
        simp [schemePre, List.dropWhile_cons, (lowerChars_facts c hc).2.1]
  rw [hdrop]
  have hpre : (schemePre scheme).filter (fun c => !unsafeChar c) =
      schemePre scheme :=
    List.filter_eq_self.mpr (by
      intro a ha
      simp [schemePre_safeChars scheme hsch a ha])
  have hnlf : ('/' :: '/' :: nl).filter (fun c => !unsafeChar c) =
      '/' :: '/' :: nl := by
    rw [List.filter_cons, List.filter_cons]
    simp only [show (!unsafeChar '/') = true by decide, if_true]
    rw [List.filter_eq_self.mpr (by
      intro a ha
      simp [(netlocChars_facts a (hnl2 a ha)).2.1])]
  rw [List.filter_append, List.filter_append, hpre, hnlf]

theorem splitNetloc_safe (nl t : Str) (hnl2 : ∀ c ∈ nl, c ∈ netlocChars)
    (ht : t = [] ∨ ∃ c r, t = c :: r ∧ netlocStop c = true) :
    splitNetloc (nl ++ t) = (nl, t) := by
  unfold splitNetloc
  have hpos : ∀ c ∈ nl, (!netlocStop c) = true := by
    intro c hc
    simp [(netlocChars_facts c (hnl2 c hc)).1]
  rw [List.takeWhile_append_of_pos hpos, List.dropWhile_append_of_pos hpos]
  rcases ht with rfl | ⟨c, r, rfl, hc⟩
  · simp
  · rw [List.takeWhile_cons, List.dropWhile_cons]
    simp [hc]


theorem netlocStop_safeChar (c : Char) (hc : netlocStop c = true) :
    (!unsafeChar c) = true := by
  have h3 : (c = '/' ∨ c = '?') ∨ c = '#' := by
    simpa [netlocStop] using hc
  rcases h3 with (rfl | rfl) | rfl <;> decide

theorem urlsplit_shape (scheme nl t : Str)
    (hsch : schemeOkB scheme = true) (hnl1 : nl ≠ [])
    (hnl2 : ∀ c ∈ nl, c ∈ netlocChars)
    (ht : t = [] ∨ ∃ c r, t = c :: r ∧ netlocStop c = true) :
    urlsplit (schemePre scheme ++ '/' :: '/' :: nl ++ t) =
      .ok (splitRest scheme nl (t.filter (fun c => !unsafeChar c))) := by
  have htf : t.filter (fun c => !unsafeChar c) = [] ∨
      ∃ c r, t.filter (fun c => !unsafeChar c) = c :: r ∧ netlocStop c = true := by
    rcases ht with rfl | ⟨c, r, rfl, hc⟩
    · exact Or.inl rfl
    · right
      refine ⟨c, r.filter (fun c => !unsafeChar c), ?_, hc⟩
      rw [List.filter_cons, if_pos (netlocStop_safeChar c hc)]
  have hsp : splitScheme (schemePre scheme ++ '/' :: '/' :: nl ++
      t.filter (fun c => !unsafeChar c)) =
      (scheme, ('/' :: '/' :: nl) ++ t.filter (fun c => !unsafeChar c)) := by
    cases hs : scheme with
    | nil =>
        unfold schemePre
        rw [if_pos rfl, List.nil_append, List.cons_append, List.cons_append,
          splitScheme_slash]
    | cons c cs =>
        unfold schemePre
        rw [if_neg (by simp), List.append_assoc, List.append_assoc]
        exact splitScheme_of_scheme c cs _ (hs ▸ hsch)
  have hbr1 : '[' ∉ nl := by
    intro hm
    exact (netlocChars_facts _ (hnl2 _ hm)).2.2.2.1 rfl
  have hbr2 : ']' ∉ nl := by
    intro hm
    exact (netlocChars_facts _ (hnl2 _ hm)).2.2.2.2.1 rfl
  unfold urlsplit
  rw [cleanUrl_shape scheme nl t hsch hnl2]
  simp only [hsp, List.cons_append, splitNetloc_safe nl _ hnl2 htf,
    if_neg (show ¬ (('[' ∈ nl ∧ ']' ∉ nl) ∨ (']' ∈ nl ∧ '[' ∉ nl)) from by
      intro hcontra
      rcases hcontra with ⟨h1, _⟩ | ⟨h1, _⟩
      · exact hbr1 h1
      · exact hbr2 h1)]


theorem slashPad_mem (url : Str) (c : Char) (h : c ∈ slashPad url) :
    c = '/' ∨ c ∈ url := by
  unfold slashPad at h
  by_cases hc : url ≠ [] ∧ url.take 1 ≠ ['/']
  · rw [if_pos hc] at h
    rcases List.mem_cons.mp h with rfl | h2
    · exact Or.inl rfl
    · exact Or.inr h2
  · rw [if_neg hc] at h
    exact Or.inr h

theorem splitRest_clean (scheme nl url query fragment : Str)
    (hu1 : '#' ∉ url) (hu2 : '?' ∉ url) (hq1 : '#' ∉ query)
    (hqf : query.filter (fun c => !unsafeChar c) = query)
    (hff : fragment.filter (fun c => !unsafeChar c) = fragment) :
    splitRest scheme nl ((tailOf url query fragment).filter
        (fun c => !unsafeChar c)) =
      ⟨scheme, nl, (slashPad url).filter (fun c => !unsafeChar c), query,
        fragment⟩ := by
  have huf1 : '#' ∉ (slashPad url).filter (fun c => !unsafeChar c) := by
    intro hm
    rcases slashPad_mem url '#' (List.mem_filter.mp hm).1 with he | he
    · exact absurd he (by decide)
    · exact hu1 he
  have huf2 : '?' ∉ (slashPad url).filter (fun c => !unsafeChar c) := by
    intro hm
    rcases slashPad_mem url '?' (List.mem_filter.mp hm).1 with he | he
    · exact absurd he (by decide)
    · exact hu2 he
  unfold tailOf splitRest
  by_cases hq : query = []
  · by_cases hf : fragment = []
    · simp only [hq, hf, ne_eq, not_true_eq_false, if_false]
      rw [splitOnce_not_mem '#' _ huf1]
      rw [splitOnce_not_mem '?' _ huf2]
      simp [hq, hf]
    · simp only [hq, hf, ne_eq, not_true_eq_false, not_false_eq_true, if_false,
        if_true]
      rw [List.filter_append, List.filter_cons]
      simp only [show (!unsafeChar '#') = true by decide, if_true, hff]
      rw [splitOnce_found '#' _ _ huf1]
      rw [splitOnce_not_mem '?' _ huf2]
      simp [hq]
  · by_cases hf : fragment = []
    · simp only [hq, hf, ne_eq, not_true_eq_false, not_false_eq_true, if_false,
        if_true]
      rw [List.filter_append, List.filter_cons]
      simp only [show (!unsafeChar '?') = true by decide, if_true, hqf]
      rw [splitOnce_not_mem '#' _ (by
        intro hm
        rcases List.mem_append.mp hm with hm1 | hm2
        · exact huf1 hm1
        · rcases List.mem_cons.mp hm2 with he | he
          · exact absurd he (by decide)
          · exact hq1 he)]
      rw [splitOnce_found '?' _ _ huf2]
      simp [hf]
    · simp only [hq, hf, ne_eq, not_false_eq_true, if_true]
      rw [List.filter_append, List.filter_append, List.filter_cons,
        List.filter_cons]
      simp only [show (!unsafeChar '#') = true by decide,
        show (!unsafeChar '?') = true by decide, if_true, hqf, hff]
      rw [show (slashPad url).filter (fun c => !unsafeChar c) ++ '?' :: query ++
          '#' :: fragment =
          ((slashPad url).filter (fun c => !unsafeChar c) ++ '?' :: query) ++
            '#' :: fragment by simp]
      rw [splitOnce_found '#' _ _ (by
        intro hm
        rcases List.mem_append.mp hm with hm1 | hm2
        · exact huf1 hm1
        · rcases List.mem_cons.mp hm2 with he | he
          · exact absurd he (by decide)
          · exact hq1 he)]
      rw [splitOnce_found '?' _ _ huf2]
      rfl


theorem urlparse_last (u : Str) (s : SplitResult) (h : urlsplit u = .ok s) :
    ∃ pa pr, urlparse u = .ok ⟨s.scheme, s.netloc, pa, pr, s.query, s.fragment⟩ := by
  unfold urlparse
  rw [h]
  simp only [Except.map]
  by_cases hcond : s.scheme ∈ uses_params ∧ ';' ∈ s.path
  · rw [if_pos hcond]
    exact ⟨_, _, rfl⟩
  · rw [if_neg hcond]
    exact ⟨_, _, rfl⟩

theorem urlparse_unparse (p2 : ParseResult) (hsch : schemeOkB p2.scheme = true)
    (hnl1 : p2.netloc ≠ []) (hnl2 : ∀ c ∈ p2.netloc, c ∈ netlocChars) :
    ∃ pa pr q f, urlparse (urlunparse p2) =
      .ok ⟨p2.scheme, p2.netloc, pa, pr, q, f⟩ := by
  have hdec : urlunparse p2 = schemePre p2.scheme ++ '/' :: '/' :: p2.netloc ++
      tailOf (if p2.params ≠ [] then p2.path ++ ';' :: p2.params else p2.path)
        p2.query p2.fragment := by
    unfold urlunparse
    exact urlunsplit_decomp _ _ _ _ _ hnl1
  rw [hdec]
  obtain ⟨pa, pr, hfin⟩ := urlparse_last _ _
    (urlsplit_shape _ _ _ hsch hnl1 hnl2 (tailOf_head _ _ _))
  exact ⟨pa, pr, _, _, hfin⟩

theorem urlparse_unparse_exact (p2 : ParseResult)
    (hsch : schemeOkB p2.scheme = true) (hnl1 : p2.netloc ≠ [])
    (hnl2 : ∀ c ∈ p2.netloc, c ∈ netlocChars)
    (hpath1 : '#' ∉ p2.path) (hpath2 : '?' ∉ p2.path)
    (hpar1 : '#' ∉ p2.params) (hpar2 : '?' ∉ p2.params)
    (hq1 : '#' ∉ p2.query)
    (hqf : p2.query.filter (fun c => !unsafeChar c) = p2.query)
    (hff : p2.fragment.filter (fun c => !unsafeChar c) = p2.fragment) :
    ∃ pa pr, urlparse (urlunparse p2) =
      .ok ⟨p2.scheme, p2.netloc, pa, pr, p2.query, p2.fragment⟩ := by
  have hu1 : '#' ∉ (if p2.params ≠ [] then p2.path ++ ';' :: p2.params
      else p2.path) := by
    split
    · intro hm
      rcases List.mem_append.mp hm with hm1 | hm2
      · exact hpath1 hm1
      · rcases List.mem_cons.mp hm2 with he | he
        · exact absurd he (by decide)
        · exact hpar1 he
    · exact hpath1
  have hu2 : '?' ∉ (if p2.params ≠ [] then p2.path ++ ';' :: p2.params
      else p2.path) := by
    split
    · intro hm
      rcases List.mem_append.mp hm with hm1 | hm2
      · exact hpath2 hm1
      · rcases List.mem_cons.mp hm2 with he | he
        · exact absurd he (by decide)
        · exact hpar2 he
    · exact hpath2
  have hdec : urlunparse p2 = schemePre p2.scheme ++ '/' :: '/' :: p2.netloc ++
      tailOf (if p2.params ≠ [] then p2.path ++ ';' :: p2.params else p2.path)
        p2.query p2.fragment := by
    unfold urlunparse
    exact urlunsplit_decomp _ _ _ _ _ hnl1
  rw [hdec]
  have hshape := urlsplit_shape _ _ _ hsch hnl1 hnl2 (tailOf_head
    (if p2.params ≠ [] then p2.path ++ ';' :: p2.params else p2.path)
    p2.query p2.fragment)
  rw [splitRest_clean _ _ _ _ _ hu1 hu2 hq1 hqf hff] at hshape
  obtain ⟨pa, pr, hfin⟩ := urlparse_last _ _ hshape
  exact ⟨pa, pr, hfin⟩

theorem hostname_plain (p : ParseResult) (hnl1 : p.netloc ≠ [])
    (hnl2 : ∀ c ∈ p.netloc, c ∈ netlocChars) : hostname p = some p.netloc := by
  unfold hostname
  have hAt : '@' ∉ p.netloc := by
    intro hm
    exact (netlocChars_facts _ (hnl2 _ hm)).2.2.2.2.2.1 rfl
  have hBr : '[' ∉ p.netloc := by
    intro hm
    exact (netlocChars_facts _ (hnl2 _ hm)).2.2.2.1 rfl
  have hCol : ':' ∉ p.netloc := by
    intro hm
    exact (netlocChars_facts _ (hnl2 _ hm)).2.2.2.2.2.2.1 rfl
  rw [hostRaw_plain _ hAt hBr hCol, if_neg hnl1]
  rw [lowerStr_fix _ (fun c hc => (netlocChars_facts c (hnl2 c hc)).2.2.1)]

theorem portRaw_none (nl : Str) (hnl2 : ∀ c ∈ nl, c ∈ netlocChars) :
    portRaw nl = none := by
  have hAt : '@' ∉ nl := by
    intro hm
    exact (netlocChars_facts _ (hnl2 _ hm)).2.2.2.2.2.1 rfl
  have hBr : '[' ∉ nl := by
    intro hm
    exact (netlocChars_facts _ (hnl2 _ hm)).2.2.2.1 rfl
  have hCol : ':' ∉ nl := by
    intro hm
    exact (netlocChars_facts _ (hnl2 _ hm)).2.2.2.2.2.2.1 rfl
  exact portRaw_plain nl hAt hBr hCol


/-! ### Invariants of urlparse output needed for the round-trip claims -/

theorem splitScheme_snd_mem (url : Str) :
    ∀ x ∈ (splitScheme url).2, x ∈ url := by
  unfold splitScheme
  dsimp only
  cases hpost : url.dropWhile (fun c => c != ':') with
  | nil => intro x hx; exact hx
  | cons d r =>
      have hdc := dropWhile_head_false hpost
      have hdc2 : d = ':' := by simpa using hdc
      subst hdc2
      cases hpre : url.takeWhile (fun c => c != ':') with
      | nil => intro x hx; exact hx
      | cons c cs =>
          by_cases hcond : c ∈ asciiLetters ∧
              (cs.all fun d => decide (d ∈ schemeChars)) = true
          · simp only [if_pos hcond]
            intro x hx
            have hx2 : x ∈ (':' : Char) :: r := List.mem_cons_of_mem ':' hx
            rw [← hpost] at hx2
            exact mem_dropWhile_mem hx2
          · simp only [if_neg hcond]
            intro x hx
            exact hx

theorem splitRest_inv (sch nl rest : Str) :
    '#' ∉ (splitRest sch nl rest).query ∧ '#' ∉ (splitRest sch nl rest).path ∧
      '?' ∉ (splitRest sch nl rest).path ∧
      (∀ x ∈ (splitRest sch nl rest).query, x ∈ rest) ∧
      (∀ x ∈ (splitRest sch nl rest).fragment, x ∈ rest) ∧
      (∀ x ∈ (splitRest sch nl rest).path, x ∈ rest) := by
  unfold splitRest
  dsimp only
  have hf1sub : ∀ x ∈ (splitOnce '#' rest).1, x ∈ rest := splitOnce_fst_mem '#' rest
  have hf1hash : '#' ∉ (splitOnce '#' rest).1 := splitOnce_fst_not_mem '#' rest
  have hq1sub : ∀ x ∈ (splitOnce '?' (splitOnce '#' rest).1).1,
      x ∈ (splitOnce '#' rest).1 := splitOnce_fst_mem '?' _
  refine ⟨?_, ?_, ?_, ?_, ?_, ?_⟩
  · cases hq2 : (splitOnce '?' (splitOnce '#' rest).1).2 with
    | none => simp [hq2]
    | some qq =>
        simp only [hq2, Option.getD_some]
        intro hm
        exact hf1hash (splitOnce_snd_mem '?' _ qq hq2 '#' hm)
  · intro hm
    exact hf1hash (hq1sub '#' hm)
  · exact splitOnce_fst_not_mem '?' _
  · cases hq2 : (splitOnce '?' (splitOnce '#' rest).1).2 with
    | none => simp [hq2]
    | some qq =>
        simp only [hq2, Option.getD_some]
        intro x hx
        exact hf1sub x (splitOnce_snd_mem '?' _ qq hq2 x hx)
  · cases hf2 : (splitOnce '#' rest).2 with
    | none => simp [hf2]
    | some ff =>
        simp only [hf2, Option.getD_some]
        intro x hx
        exact splitOnce_snd_mem '#' rest ff hf2 x hx
  · intro x hx
    exact hf1sub x (hq1sub x hx)

theorem splitParams_snd_mem (url : Str) :
    ∀ x ∈ (splitParams url).2, x ∈ url := by
  unfold splitParams
  by_cases hs : '/' ∈ url
  · rw [if_pos hs]
    dsimp only
    rcases hsp : splitOnce ';' ((url.reverse.takeWhile (fun c => c != '/')).reverse)
      with ⟨b1, ob2⟩
    cases ob2 with
    | none => simp
    | some b2 =>
        intro x hx
        have hx0 : x ∈ b2 := hx
        have hx2 : x ∈ (url.reverse.takeWhile (fun c => c != '/')).reverse :=
          splitOnce_snd_mem ';' _ b2 (by rw [hsp]) x hx0
        have hx3 := List.mem_reverse.mp hx2
        exact List.mem_reverse.mp (mem_takeWhile_mem hx3)
  · rw [if_neg hs]
    rcases hsp : splitOnce ';' url with ⟨u1, ou2⟩
    cases ou2 with
    | none => simp
    | some u2 =>
        intro x hx
        have hx0 : x ∈ u2 := hx
        exact splitOnce_snd_mem ';' url u2 (by rw [hsp]) x hx0

theorem cleanUrl_no_unsafe (u : Str) : ∀ x ∈ cleanUrl u, (!unsafeChar x) = true := by
  intro x hx
  exact (List.mem_filter.mp hx).2

theorem urlsplit_inv (u : Str) (s : SplitResult) (h : urlsplit u = .ok s) :
    schemeOkB s.scheme = true ∧ '#' ∉ s.query ∧ '#' ∉ s.path ∧ '?' ∉ s.path ∧
      (∀ x ∈ s.query, x ∈ cleanUrl u) ∧ (∀ x ∈ s.fragment, x ∈ cleanUrl u) ∧
      (∀ x ∈ s.path, x ∈ cleanUrl u) := by
  unfold urlsplit at h
  dsimp only at h
  split at h
  next rest heq =>
      split at h
      · exact absurd h (by simp)
      · have hs2 : splitRest (splitScheme (cleanUrl u)).1 (splitNetloc rest).1
            (splitNetloc rest).2 = s := by
          simpa using h
        have hsub : ∀ x ∈ (splitNetloc rest).2, x ∈ cleanUrl u := by
          intro x hx
          have hx1 : x ∈ rest := mem_dropWhile_mem hx
          have hx2 : x ∈ '/' :: '/' :: rest := by simp [hx1]
          rw [← heq] at hx2
          exact splitScheme_snd_mem (cleanUrl u) x hx2
        rw [← hs2]
        obtain ⟨i1, i2, i3, i4, i5, i6⟩ := splitRest_inv
          (splitScheme (cleanUrl u)).1 (splitNetloc rest).1 (splitNetloc rest).2
        exact ⟨splitScheme_ok (cleanUrl u), i1, i2, i3,
          fun x hx => hsub x (i4 x hx), fun x hx => hsub x (i5 x hx),
          fun x hx => hsub x (i6 x hx)⟩
  next other heq =>
      have hs2 : splitRest (splitScheme (cleanUrl u)).1 []
          ((splitScheme (cleanUrl u)).2) = s := by
        simpa using h
      have hsub : ∀ x ∈ (splitScheme (cleanUrl u)).2, x ∈ cleanUrl u :=
        splitScheme_snd_mem (cleanUrl u)
      rw [← hs2]
      obtain ⟨i1, i2, i3, i4, i5, i6⟩ := splitRest_inv
        (splitScheme (cleanUrl u)).1 [] ((splitScheme (cleanUrl u)).2)
      exact ⟨splitScheme_ok (cleanUrl u), i1, i2, i3,
        fun x hx => hsub x (i4 x hx), fun x hx => hsub x (i5 x hx),
        fun x hx => hsub x (i6 x hx)⟩


theorem urlparse_inv (u : Str) (p : ParseResult) (h : urlparse u = .ok p) :
    schemeOkB p.scheme = true ∧ '#' ∉ p.query ∧
      p.query.filter (fun c => !unsafeChar c) = p.query ∧
      p.fragment.filter (fun c => !unsafeChar c) = p.fragment ∧
      '#' ∉ p.params ∧ '?' ∉ p.params := by
  unfold urlparse at h
  cases husp : urlsplit u with
  | error e =>
      rw [husp] at h
      simp [Except.map] at h
  | ok sres =>
      rw [husp] at h
      simp only [Except.map, Except.ok.injEq] at h
      obtain ⟨i1, i2, i3, i4, i5, i6, i7⟩ := urlsplit_inv u sres husp
      have htabq : sres.query.filter (fun c => !unsafeChar c) = sres.query :=
        List.filter_eq_self.mpr (fun a ha => cleanUrl_no_unsafe u a (i5 a ha))
      have htabf : sres.fragment.filter (fun c => !unsafeChar c) = sres.fragment :=
        List.filter_eq_self.mpr (fun a ha => cleanUrl_no_unsafe u a (i6 a ha))
      split at h <;> rw [← h]
      · refine ⟨i1, i2, htabq, htabf, ?_, ?_⟩
        · intro hm
          exact i3 (splitParams_snd_mem sres.path '#' hm)
        · intro hm
          exact i4 (splitParams_snd_mem sres.path '?' hm)
      · exact ⟨i1, i2, htabq, htabf, by simp, by simp⟩


/-! ### Characters of formatted paths and assembled generate_links runs -/

theorem natStrCore_digits (fuel n : Nat) (acc : Str)
    (hacc : ∀ c ∈ acc, c ∈ digitChars) :
    ∀ c ∈ natStrCore fuel n acc, c ∈ digitChars := by
  induction fuel generalizing n acc with
  | zero => exact hacc
  | succ f ih =>
      unfold natStrCore
      have hd : digitChars.getD (n % 10) '0' ∈ digitChars := by
        have hlt : n % 10 < digitChars.length := Nat.mod_lt _ (by decide)
        rw [List.getD_eq_getElem?_getD, List.getElem?_eq_getElem hlt]
        exact List.getElem_mem hlt
      have hacc2 : ∀ c ∈ digitChars.getD (n % 10) '0' :: acc, c ∈ digitChars := by
        intro c hc
        rcases List.mem_cons.mp hc with rfl | hc2
        · exact hd
        · exact hacc c hc2
      split
      · exact hacc2
      · exact ih (n / 10) _ hacc2

theorem natStr_digits (n : Nat) : ∀ c ∈ natStr n, c ∈ digitChars :=
  natStrCore_digits (n + 1) n [] (by simp)

theorem resolveField_ok_val (arg : Str) (st : FmtState) (acc : Str)
    (v : Str) (st2 : FmtState) (h : resolveField arg st acc = .ok (v, st2)) :
    v = arg := by
  unfold resolveField at h
  by_cases hacc : acc = []
  · rw [if_pos hacc] at h
    cases st <;> simp_all
  · rw [if_neg hacc] at h
    by_cases hdig : (acc.all fun c => decide (c ∈ digitChars)) = true
    · rw [if_pos hdig] at h
      cases st <;> simp_all <;>
        · split at h <;> simp_all
    · rw [if_neg hdig] at h
      simp at h

theorem fmtRun_lit_close_err (arg : Str) (st : FmtState) (tail : Str)
    (h2 : ∀ r, tail ≠ '}' :: r) :
    fmtRun arg st .lit ('}' :: tail) = .error .valueError := by
  cases tail with
  | nil => rfl
  | cons a r =>
      have ha : a ≠ '}' := fun hh => h2 r (by rw [hh])
      rw [fmtRun.eq_def]
      split <;> (try simp_all [Except.map]) <;> simp_all [eq_comm]

theorem fmtRun_field_other (arg : Str) (st : FmtState) (acc : Str) (c : Char)
    (r : Str) (hne : c ≠ '}') :
    fmtRun arg st (.field acc) (c :: r) =
      if c == ':' || c == '!' || c == '{' then .error .unsupported
      else fmtRun arg st (.field (acc ++ [c])) r := by
  rw [fmtRun.eq_def]
  split <;> (try simp_all [Except.map]) <;> simp_all [eq_comm]

theorem fmtRun_chars (arg : Str) (st : FmtState) (md : FmtMode) (p : Str) :
    ∀ res, fmtRun arg st md p = .ok res → ∀ c ∈ res, c ∈ p ∨ c ∈ arg := by
  induction st, md, p using fmtRun.induct arg with
  | case1 st =>
      intro res h c hc
      have hres : res = [] := by simpa [fmtRun] using h.symm
      subst hres
      simp at hc
  | case2 st acc =>
      intro res h
      simp [fmtRun] at h
  | case3 st r ih =>
      intro res h c hc
      rw [fmtRun_lit_oo] at h
      cases hfr : fmtRun arg st .lit r with
      | error e => rw [hfr] at h; simp [Except.map] at h
      | ok res2 =>
          rw [hfr] at h
          simp only [Except.map, Except.ok.injEq] at h
          subst h
          rcases List.mem_cons.mp hc with rfl | hc2
          · exact Or.inl (by simp)
          · rcases ih res2 hfr c hc2 with hm | hm
            · exact Or.inl (by simp [hm])
            · exact Or.inr hm
  | case4 st r ih =>
      intro res h c hc
      rw [fmtRun_lit_cc] at h
      cases hfr : fmtRun arg st .lit r with
      | error e => rw [hfr] at h; simp [Except.map] at h
      | ok res2 =>
          rw [hfr] at h
          simp only [Except.map, Except.ok.injEq] at h
          subst h
          rcases List.mem_cons.mp hc with rfl | hc2
          · exact Or.inl (by simp)
          · rcases ih res2 hfr c hc2 with hm | hm
            · exact Or.inl (by simp [hm])
            · exact Or.inr hm
  | case5 st r hnot ih =>
      intro res h c hc
      rw [fmtRun_lit_open arg st r (fun r2 hh => hnot r2 hh)] at h
      rcases ih res h c hc with hm | hm
      · exact Or.inl (List.mem_cons_of_mem _ hm)
      · exact Or.inr hm
  | case6 st tail hnot =>
      intro res h
      rw [fmtRun_lit_close_err arg st tail (fun r hh => hnot r hh)] at h
      simp at h
  | case7 st c r hs1 hs2 hc1 hc2 ih =>
      intro res h cc hcc
      rw [fmtRun_lit_other arg st c r (fun hh => hc1 hh) (fun hh => hc2 hh)] at h
      cases hfr : fmtRun arg st .lit r with
      | error e => rw [hfr] at h; simp [Except.map] at h
      | ok res2 =>
          rw [hfr] at h
          simp only [Except.map, Except.ok.injEq] at h
          subst h
          rcases List.mem_cons.mp hcc with rfl | hcc2
          · exact Or.inl (by simp)
          · rcases ih res2 hfr cc hcc2 with hm | hm
            · exact Or.inl (by simp [hm])
            · exact Or.inr hm
  | case8 st acc r e hres =>
      intro res h
      rw [fmtRun_field_close, hres] at h
      simp at h
  | case9 st acc r v st2 hres ih =>
      intro res h c hc
      rw [fmtRun_field_close, hres] at h
      simp only [Except.map] at h
      cases hfr : fmtRun arg st2 .lit r with
      | error e2 => rw [hfr] at h; simp at h
      | ok res2 =>
          rw [hfr] at h
          simp only [Except.ok.injEq] at h
          subst h
          have hv : v = arg := resolveField_ok_val arg st acc v st2 hres
          subst hv
          rcases List.mem_append.mp hc with hm | hm
          · exact Or.inr hm
          · rcases ih res2 hfr c hm with hm2 | hm2
            · exact Or.inl (List.mem_cons_of_mem _ hm2)
            · exact Or.inr hm2
  | case10 st acc c r hne hguard =>
      intro res h
      rw [fmtRun_field_other arg st acc c r (fun hh => hne hh), if_pos hguard] at h
      simp at h
  | case11 st acc c r hne hguard ih =>
      intro res h cc hcc
      rw [fmtRun_field_other arg st acc c r (fun hh => hne hh),
        if_neg hguard] at h
      rcases ih res h cc hcc with hm | hm
      · exact Or.inl (List.mem_cons_of_mem _ hm)
      · exact Or.inr hm

theorem pyFormat_chars (pat arg res : Str) (h : pyFormat pat arg = .ok res) :
    ∀ c ∈ res, c ∈ pat ∨ c ∈ arg :=
  fmtRun_chars arg .init .lit pat res h


theorem generate_links_eq (r : Nat → TldRand) (base : Str) (n : Int) (pat : Str)
    (p : ParseResult) (hp : urlparse base = .ok p) (h : Str)
    (hh : hostname p = some h) :
    generate_links r base n pat =
      match genLoop r p (firstLabel h) pat
          ((List.range n.toNat).map (fun k => k + 1)) with
      | .error e => .error (.formatError e)
      | .ok links => .ok links := by
  unfold generate_links
  rw [hp]
  simp only [hh]

theorem generate_links_ok (r : Nat → TldRand) (base : Str) (n : Int) (pat : Str)
    (p : ParseResult) (h : Str) (k : Nat)
    (hp : urlparse base = .ok p) (hh : hostname p = some h)
    (hcnt : placeholderCount pat = some k) (hk : k ≤ 1) :
    generate_links r base n pat =
      .ok (((List.range n.toNat).map (fun j => j + 1)).map
        (fun i => urlunparse ⟨p.scheme,
          firstLabel h ++ '.' :: generate_random_tld (r i) none,
          spec_subst (natStr i) pat, p.params, p.query, p.fragment⟩)) := by
  rw [generate_links_eq r base n pat p hp h hh]
  rw [genLoop_ok r p (firstLabel h) pat (fun i => spec_subst (natStr i) pat) _
    (fun i _ => fmt_le1 (natStr i) pat k hcnt hk)]

theorem genLoop_mem (r : Nat → TldRand) (parsed : ParseResult) (bh pat : Str)
    (is : List Nat) (ls : List Str) (hok : genLoop r parsed bh pat is = .ok ls) :
    ∀ L ∈ ls, ∃ i path2, pyFormat pat (natStr i) = .ok path2 ∧
      L = urlunparse ⟨parsed.scheme,
        bh ++ '.' :: generate_random_tld (r i) none, path2,
        parsed.params, parsed.query, parsed.fragment⟩ := by
  induction is generalizing ls with
  | nil =>
      have hls : ls = [] := by simpa [genLoop] using hok.symm
      subst hls
      simp
  | cons i tl ih =>
      unfold genLoop at hok
      cases hfmt : pyFormat pat (natStr i) with
      | error e => rw [hfmt] at hok; simp at hok
      | ok path =>
          rw [hfmt] at hok
          simp only at hok
          cases hrest : genLoop r parsed bh pat tl with
          | error e => rw [hrest] at hok; simp at hok
          | ok rest =>
              rw [hrest] at hok
              simp only [Except.ok.injEq] at hok
              subst hok
              intro L hL
              rcases List.mem_cons.mp hL with rfl | hL2
              · exact ⟨i, path, hfmt, rfl⟩
              · exact ih rest hrest L hL2

theorem generate_links_mem (r : Nat → TldRand) (base : Str) (n : Int)
    (pat : Str) (links : List Str) (p : ParseResult) (h : Str)
    (hp : urlparse base = .ok p) (hh : hostname p = some h)
    (hok : generate_links r base n pat = .ok links) :
    ∀ L ∈ links, ∃ i path2, pyFormat pat (natStr i) = .ok path2 ∧
      L = urlunparse ⟨p.scheme,
        firstLabel h ++ '.' :: generate_random_tld (r i) none, path2,
        p.params, p.query, p.fragment⟩ := by
  rw [generate_links_eq r base n pat p hp h hh] at hok
  cases hloop : genLoop r p (firstLabel h) pat
      ((List.range n.toNat).map (fun k => k + 1)) with
  | error e => rw [hloop] at hok; simp at hok
  | ok ls =>
      rw [hloop] at hok
      simp only [Except.ok.injEq] at hok
      subst hok
      exact genLoop_mem r p (firstLabel h) pat _ ls hloop

theorem gen_netloc_facts (bh tld : Str) (hbh : ∀ c ∈ bh, c ∈ hostChars)
    (htld2 : ∀ c ∈ tld, c ∈ ascii_lowercase) :
    (bh ++ '.' :: tld) ≠ [] ∧ (∀ c ∈ bh ++ '.' :: tld, c ∈ netlocChars) ∧
      firstLabel (bh ++ '.' :: tld) = bh ∧
      ('.' ∉ tld → lastLabel (bh ++ '.' :: tld) = tld) := by
  have hdot : ('.' : Char) ∈ netlocChars := by decide
  refine ⟨by simp, ?_, ?_, ?_⟩
  · intro c hc
    rcases List.mem_append.mp hc with hm | hm
    · exact hostChars_sub c (hbh c hm)
    · rcases List.mem_cons.mp hm with rfl | hm2
      · exact hdot
      · exact hostChars_sub c (lower_sub_host c (htld2 c hm2))
  · exact firstLabel_split bh tld (fun hm => hostChars_not_dot '.' (hbh '.' hm) rfl)
  · intro htd
    exact lastLabel_split bh tld
      (fun hm => hostChars_not_dot '.' (hbh '.' hm) rfl) htd

theorem tld_not_dot (r : TldRand) : '.' ∉ generate_random_tld r none := by
  intro hm
  exact (lowerChars_facts '.' (tld_lower r '.' hm)).2.2.2.2.2 rfl


/-- Whether a link string parses as a URL whose hostname exists and whose
top-level (last dot-separated) label is a value the TLD selector can
produce. -/
def linkTldOk (L : Str) : Bool :=
  match urlparse L with
  | .error _ => false
  | .ok p2 =>
      match hostname p2 with
      | none => false
      | some hn => tldOkB (lastLabel hn)

/-! ### The claims -/

/-- C1: the spec says every base URL that cannot be parsed into a hostname
component (empty string, string without hostname) makes `generate_links`
fail with the `InvalidURL` error identifying the input. The code instead
crashes on line 51 with an `AttributeError` (`hostname` is `None` and
`.split` is called on it); the `Invalid base URL` ValueError on lines 47-49
is never reached for these inputs, because `urlparse` does not raise on
them. This evaluates the embedded code at the spec's own example inputs. -/
theorem claim1_attribute_error_eval :
    generate_links tldOracleCom ("").toList 5 ("/page{}").toList =
        .error .attributeError ∧
      generate_links tldOracleCom ("not a url").toList 5 ("/page{}").toList =
        .error .attributeError ∧
      (Except.error RunError.attributeError : Except RunError (List Str)) ≠
        .error (.invalidURL ("").toList) :=
  ⟨by decide, by decide, by decide⟩

/-- C2 counterexample: a zero-placeholder pattern does NOT raise - Python's
`format` ignores surplus arguments - so `generate_links` succeeds and uses
the pattern as a constant path, refuting the claim that zero placeholders
raise `PathFormatError`. -/
theorem claim2_counterexample :
    placeholderCount ("/static").toList = some 0 ∧
      generate_links tldOracleCom ("https://example.com").toList 2
        ("/static").toList =
        .ok [("https://example.com/static").toList,
          ("https://example.com/static").toList] :=
  ⟨by decide, by decide⟩

/-- C2 (amended): a pattern with more than one substitutable placeholder
makes `generate_links` abort with the `IndexError` from `format` (the
`PathFormatError` of the spec) and no links are returned; a pattern with
zero placeholders is not rejected (see the counterexample). -/
theorem claim2_amended (r : Nat → TldRand) (u pat : Str) (n : Int)
    (p : ParseResult) (h : Str) (k : Nat)
    (hp : urlparse u = .ok p) (hh : hostname p = some h)
    (hcnt : placeholderCount pat = some k) (hk : 2 ≤ k) (hn : 1 ≤ n) :
    generate_links r u n pat = .error (.formatError (.indexError 1)) := by
  rw [generate_links_eq r u n pat p hp h hh]
  obtain ⟨m, hm⟩ : ∃ m, n.toNat = m + 1 := ⟨n.toNat - 1, by omega⟩
  rw [hm, List.range_succ_eq_map, List.map_cons]
  rw [genLoop_err r p (firstLabel h) pat _ _ _
    (fmt_ge2_err (natStr (0 + 1)) pat k hcnt hk)]

/-- C2 witness: the amended claim at a concrete two-placeholder pattern. -/
theorem claim2_amended_witness :
    generate_links tldOracleCom ("https://example.com").toList 1
      ("/a{}{}").toList = .error (.formatError (.indexError 1)) :=
  claim2_amended tldOracleCom (("https://example.com").toList)
    (("/a{}{}").toList) 1
    ⟨("https").toList, ("example.com").toList, [], [], [], []⟩
    (("example.com").toList) 2 (by decide) (by decide) (by decide)
    (by decide) (by decide)

/-- C3: for a parseable base URL with a hostname, a well-formed pattern with
at most one placeholder and `count ≥ 0`, `generate_links` returns exactly
`count` links, and the empty list when the count is zero. -/
theorem claim3_link_count (r : Nat → TldRand) (u pat : Str) (n : Int)
    (p : ParseResult) (h : Str) (k : Nat)
    (hp : urlparse u = .ok p) (hh : hostname p = some h)
    (hcnt : placeholderCount pat = some k) (hk : k ≤ 1) (hn : 0 ≤ n) :
    ∃ links, generate_links r u n pat = .ok links ∧
      (links.length : Int) = n ∧ (n = 0 → links = []) := by
  refine ⟨_, generate_links_ok r u n pat p h k hp hh hcnt hk, ?_, ?_⟩
  · simp only [List.length_map, List.length_range]
    exact_mod_cast Int.toNat_of_nonneg hn
  · intro h0
    subst h0
    simp

/-- C3 witness: three links for a concrete base URL. -/
theorem claim3_witness :
    ∃ links, generate_links tldOracleCom (("https://example.com").toList) 3
        (("/p{}").toList) = .ok links ∧
      (links.length : Int) = 3 ∧ ((3 : Int) = 0 → links = []) :=
  claim3_link_count tldOracleCom (("https://example.com").toList)
    (("/p{}").toList) 3
    ⟨("https").toList, ("example.com").toList, [], [], [], []⟩
    (("example.com").toList) 1 (by decide) (by decide) (by decide)
    (by decide) (by decide)

/-- C4: `random.shuffle` (Fisher-Yates with in-range draws) returns a
permutation of its input: same multiset (all counts equal), same length, and
lists of length at most one come back unchanged. -/
theorem claim4_shuffle_perm (rnd : Nat → Nat) (l : List Str) :
    List.Perm (pyShuffle rnd l) l ∧ (pyShuffle rnd l).length = l.length ∧
      (∀ s : Str, (pyShuffle rnd l).countP (fun x => decide (x = s)) =
        l.countP (fun x => decide (x = s))) ∧
      (l.length ≤ 1 → pyShuffle rnd l = l) := by
  have hperm := pyShuffle_perm rnd l
  exact ⟨hperm, hperm.length_eq, fun s => hperm.countP_eq _,
    pyShuffle_short rnd l⟩

/-- C4 witness: the permutation and the singleton case at concrete lists. -/
theorem claim4_witness :
    pyShuffle (fun _ => 0) [("a").toList] = [("a").toList] ∧
      List.Perm (pyShuffle (fun _ => 0)
        [("a").toList, ("b").toList, ("c").toList])
        [("a").toList, ("b").toList, ("c").toList] :=
  ⟨(claim4_shuffle_perm (fun _ => 0) [("a").toList]).2.2.2 (by decide),
    (claim4_shuffle_perm (fun _ => 0)
      [("a").toList, ("b").toList, ("c").toList]).1⟩

/-- C5: with a single-placeholder pattern, the i-th link (0-based position i)
is built from the base parse with the path obtained by substituting the
1-based index `i + 1` into the pattern at its placeholder, in order. -/
theorem claim5_paths (r : Nat → TldRand) (u pat : Str) (n : Int)
    (p : ParseResult) (h : Str)
    (hp : urlparse u = .ok p) (hh : hostname p = some h)
    (hcnt : placeholderCount pat = some 1) (hn : 0 ≤ n) :
    ∃ links, generate_links r u n pat = .ok links ∧
      (links.length : Int) = n ∧
      ∀ i, ∀ hi : i < links.length,
        links.get ⟨i, hi⟩ = urlunparse ⟨p.scheme,
          firstLabel h ++ '.' :: generate_random_tld (r (i + 1)) none,
          spec_subst (natStr (i + 1)) pat, p.params, p.query, p.fragment⟩ := by
  refine ⟨_, generate_links_ok r u n pat p h 1 hp hh hcnt (le_refl 1), ?_, ?_⟩
  · simp only [List.length_map, List.length_range]
    exact_mod_cast Int.toNat_of_nonneg hn
  · intro i hi
    simp [List.get_eq_getElem, List.getElem_map, List.getElem_range]

/-- C5 witness: two links from a concrete base URL, with their paths. -/
theorem claim5_witness :
    ∃ links, generate_links tldOracleCom (("https://example.com").toList) 2
        (("/p{}").toList) = .ok links ∧
      (links.length : Int) = 2 ∧
      ∀ i, ∀ hi : i < links.length,
        links.get ⟨i, hi⟩ = urlunparse ⟨("https").toList,
          firstLabel (("example.com").toList) ++ '.' ::
            generate_random_tld (tldOracleCom (i + 1)) none,
          spec_subst (natStr (i + 1)) (("/p{}").toList), [], [], []⟩ :=
  claim5_paths tldOracleCom (("https://example.com").toList)
    (("/p{}").toList) 2
    ⟨("https").toList, ("example.com").toList, [], [], [], []⟩
    (("example.com").toList) (by decide) (by decide) (by decide) (by decide)


/-- C6 counterexample: for the valid base URL `http://[::1]/` the extracted
base hostname is `::1`, but the single generated link does not even have a
hostname when parsed back (its netloc `::1.com` parses as an empty host with
a port), so no link's first hostname label can equal the base hostname. -/
theorem claim6_counterexample :
    (urlparse ("http://[::1]/").toList).map hostname =
        .ok (some (("::1").toList)) ∧
      generate_links tldOracleCom ("http://[::1]/").toList 1
        ("/page{}").toList = .ok [("http://::1.com/page1").toList] ∧
      (urlparse ("http://::1.com/page1").toList).map hostname = .ok none :=
  ⟨by decide, by decide, by decide⟩

/-- C6 (amended): the base hostname is extracted as the part of the parsed
hostname before its first dot (the whole hostname when there is no dot), and
when that base hostname consists of ordinary DNS label characters (lowercase
letters, digits, hyphen, underscore - excluding the bracketed IPv6 hosts of
the counterexample), every generated link parses with a hostname whose first
dot-separated label is exactly the base hostname. -/
theorem claim6_amended (r : Nat → TldRand) (u pat : Str) (n : Int)
    (links : List Str) (p : ParseResult) (h : Str)
    (hp : urlparse u = .ok p) (hh : hostname p = some h)
    (hbh : ∀ c ∈ firstLabel h, c ∈ hostChars)
    (hok : generate_links r u n pat = .ok links) :
    (firstLabel h = h.takeWhile (fun c => c != '.') ∧
      ('.' ∉ h → firstLabel h = h)) ∧
    ∀ L ∈ links, ∃ p2 hn2, urlparse L = .ok p2 ∧ hostname p2 = some hn2 ∧
      firstLabel hn2 = firstLabel h := by
  refine ⟨⟨firstLabel_eq_takeWhile h, firstLabel_whole h⟩, ?_⟩
  intro L hL
  obtain ⟨i, path2, hfmt, rfl⟩ :=
    generate_links_mem r u n pat links p h hp hh hok L hL
  obtain ⟨hne, hchars, hfst, hlast⟩ := gen_netloc_facts (firstLabel h)
    (generate_random_tld (r i) none) hbh (tld_lower (r i))
  have hsch : schemeOkB p.scheme = true := (urlparse_inv u p hp).1
  obtain ⟨pa, pr, q, f, hparse2⟩ := urlparse_unparse
    ⟨p.scheme, firstLabel h ++ '.' :: generate_random_tld (r i) none, path2,
      p.params, p.query, p.fragment⟩ hsch hne hchars
  refine ⟨_, firstLabel h ++ '.' :: generate_random_tld (r i) none, hparse2,
    ?_, hfst⟩
  exact hostname_plain
    ⟨p.scheme, firstLabel h ++ '.' :: generate_random_tld (r i) none, pa, pr,
      q, f⟩ hne hchars

/-- C6 witness: the amended claim at a concrete base URL and two links. -/
theorem claim6_witness :
    (firstLabel (("example.com").toList) =
        (("example.com").toList).takeWhile (fun c => c != '.') ∧
      ('.' ∉ ("example.com").toList →
        firstLabel (("example.com").toList) = ("example.com").toList)) ∧
    ∀ L ∈ [("https://example.com/page1").toList,
        ("https://example.com/page2").toList],
      ∃ p2 hn2, urlparse L = .ok p2 ∧ hostname p2 = some hn2 ∧
        firstLabel hn2 = firstLabel (("example.com").toList) :=
  claim6_amended tldOracleCom (("https://example.com").toList)
    (("/page{}").toList) 2
    [("https://example.com/page1").toList,
      ("https://example.com/page2").toList]
    ⟨("https").toList, ("example.com").toList, [], [], [], []⟩
    (("example.com").toList) (by decide) (by decide) (by decide) (by decide)

/-- C7 counterexample: for the valid base URL `http://[::1]/` the generated
link does not parse into a URL with a hostname at all, so its top-level
label is not a TLD-selector value, refuting the universally quantified
claim. -/
theorem claim7_counterexample :
    generate_links tldOracleCom ("http://[::1]/").toList 1
        ("/page{}").toList = .ok [("http://::1.com/page1").toList] ∧
      linkTldOk ("http://::1.com/page1").toList = false :=
  ⟨by decide, by decide⟩

/-- C7 (amended): every TLD-selector output with the default candidate list
is a member of the default 8-item list or a string of 2 or 3 lowercase ASCII
letters, and - for base URLs whose base hostname consists of ordinary DNS
label characters - every generated link parses as a URL whose hostname's
top-level label is such a value. -/
theorem claim7_amended (r : Nat → TldRand) (u pat : Str) (n : Int)
    (links : List Str) (p : ParseResult) (h : Str)
    (hp : urlparse u = .ok p) (hh : hostname p = some h)
    (hbh : ∀ c ∈ firstLabel h, c ∈ hostChars)
    (hok : generate_links r u n pat = .ok links) :
    (∀ rr : TldRand, tldOkB (generate_random_tld rr none) = true) ∧
    ∀ L ∈ links, linkTldOk L = true := by
  refine ⟨tld_ok, ?_⟩
  intro L hL
  obtain ⟨i, path2, hfmt, rfl⟩ :=
    generate_links_mem r u n pat links p h hp hh hok L hL
  obtain ⟨hne, hchars, hfst, hlast⟩ := gen_netloc_facts (firstLabel h)
    (generate_random_tld (r i) none) hbh (tld_lower (r i))
  have hsch : schemeOkB p.scheme = true := (urlparse_inv u p hp).1
  obtain ⟨pa, pr, q, f, hparse2⟩ := urlparse_unparse
    ⟨p.scheme, firstLabel h ++ '.' :: generate_random_tld (r i) none, path2,
      p.params, p.query, p.fragment⟩ hsch hne hchars
  have hhost := hostname_plain
    ⟨p.scheme, firstLabel h ++ '.' :: generate_random_tld (r i) none, pa, pr,
      q, f⟩ hne hchars
  unfold linkTldOk
  rw [hparse2]
  simp only [hhost]
  rw [hlast (tld_not_dot (r i))]
  exact tld_ok (r i)

/-- C7 witness: the amended claim at a concrete base URL. -/
theorem claim7_witness :
    (∀ rr : TldRand, tldOkB (generate_random_tld rr none) = true) ∧
    ∀ L ∈ [("https://example.com/page1").toList],
      linkTldOk L = true :=
  claim7_amended tldOracleCom (("https://example.com").toList)
    (("/page{}").toList) 1 [("https://example.com/page1").toList]
    ⟨("https").toList, ("example.com").toList, [], [], [], []⟩
    (("example.com").toList) (by decide) (by decide) (by decide) (by decide)


/-- C8 counterexample: the code performs no percent-encoding, so a path
pattern containing `#` produces a link that does not round-trip: the
reparsed link's query is empty and its fragment absorbs the path remainder,
the original query `q=1` and fragment `frag` are not carried unchanged. -/
theorem claim8_counterexample :
    generate_links tldOracleCom ("https://example.com/p?q=1#frag").toList 1
        ("/x{}#evil").toList =
        .ok [("https://example.com/x1#evil?q=1#frag").toList] ∧
      urlparse ("https://example.com/p?q=1#frag").toList =
        .ok ⟨("https").toList, ("example.com").toList, ("/p").toList, [],
          ("q=1").toList, ("frag").toList⟩ ∧
      urlparse ("https://example.com/x1#evil?q=1#frag").toList =
        .ok ⟨("https").toList, ("example.com").toList, ("/x1").toList, [], [],
          ("evil?q=1#frag").toList⟩ ∧
      ([] : Str) ≠ ("q=1").toList ∧
      ("evil?q=1#frag").toList ≠ ("frag").toList :=
  ⟨by decide, by decide, by decide, by decide, by decide⟩

/-- C8 (amended): provided the path pattern contains no `#` or `?` (the code
does not percent-encode) and the base hostname is an ordinary DNS label,
every generated link reparses with the original scheme, query and fragment
unchanged, and with netloc equal to the base hostname, a dot and the drawn
TLD. -/
theorem claim8_amended (r : Nat → TldRand) (u pat : Str) (n : Int)
    (links : List Str) (p : ParseResult) (h : Str)
    (hp : urlparse u = .ok p) (hh : hostname p = some h)
    (hbh : ∀ c ∈ firstLabel h, c ∈ hostChars)
    (hpat : ∀ c ∈ pat, c ≠ '#' ∧ c ≠ '?')
    (hok : generate_links r u n pat = .ok links) :
    ∀ L ∈ links, ∃ p2, urlparse L = .ok p2 ∧ p2.scheme = p.scheme ∧
      p2.query = p.query ∧ p2.fragment = p.fragment ∧
      ∃ tld, p2.netloc = firstLabel h ++ '.' :: tld := by
  intro L hL
  obtain ⟨i, path2, hfmt, rfl⟩ :=
    generate_links_mem r u n pat links p h hp hh hok L hL
  obtain ⟨hsch, hq1, hqf, hff, hpar1, hpar2⟩ := urlparse_inv u p hp
  have hpath1 : '#' ∉ path2 := by
    intro hm
    rcases pyFormat_chars pat (natStr i) path2 hfmt '#' hm with hm1 | hm2
    · exact (hpat '#' hm1).1 rfl
    · exact absurd (natStr_digits i '#' hm2) (by decide)
  have hpath2 : '?' ∉ path2 := by
    intro hm
    rcases pyFormat_chars pat (natStr i) path2 hfmt '?' hm with hm1 | hm2
    · exact (hpat '?' hm1).2 rfl
    · exact absurd (natStr_digits i '?' hm2) (by decide)
  obtain ⟨hne, hchars, hfst, hlast⟩ := gen_netloc_facts (firstLabel h)
    (generate_random_tld (r i) none) hbh (tld_lower (r i))
  obtain ⟨pa, pr, hparse2⟩ := urlparse_unparse_exact
    ⟨p.scheme, firstLabel h ++ '.' :: generate_random_tld (r i) none, path2,
      p.params, p.query, p.fragment⟩ hsch hne hchars hpath1 hpath2 hpar1
    hpar2 hq1 hqf hff
  exact ⟨_, hparse2, rfl, rfl, rfl, generate_random_tld (r i) none, rfl⟩

/-- C8 witness: the amended claim at a concrete base URL carrying a query
and a fragment. -/
theorem claim8_witness :
    ∃ p2, urlparse (("https://example.com/page1?q=1#frag").toList) = .ok p2 ∧
      p2.scheme = ("https").toList ∧ p2.query = ("q=1").toList ∧
      p2.fragment = ("frag").toList ∧
      ∃ tld, p2.netloc =
        firstLabel (("example.com").toList) ++ '.' :: tld :=
  claim8_amended tldOracleCom
    (("https://example.com/p?q=1#frag").toList) (("/page{}").toList) 1
    [("https://example.com/page1?q=1#frag").toList]
    ⟨("https").toList, ("example.com").toList, ("/p").toList, [],
      ("q=1").toList, ("frag").toList⟩
    (("example.com").toList) (by decide) (by decide) (by decide) (by decide)
    (by decide) (("https://example.com/page1?q=1#frag").toList) (by decide)

/-- C9: a negative `num_links` makes `range(1, num_links + 1)` empty, so
`generate_links` silently returns the empty list instead of rejecting the
count. -/
theorem claim9_negative_count (r : Nat → TldRand) (u pat : Str) (n : Int)
    (p : ParseResult) (h : Str)
    (hp : urlparse u = .ok p) (hh : hostname p = some h) (hn : n < 0) :
    generate_links r u n pat = .ok [] := by
  rw [generate_links_eq r u n pat p hp h hh]
  have h0 : n.toNat = 0 := by omega
  rw [h0]
  rfl

/-- C9 witness: a concrete negative count produces no links. -/
theorem claim9_witness :
    generate_links tldOracleCom (("https://example.com").toList) (-3)
      (("/page{}").toList) = .ok [] :=
  claim9_negative_count tldOracleCom (("https://example.com").toList)
    (("/page{}").toList) (-3)
    ⟨("https").toList, ("example.com").toList, [], [], [], []⟩
    (("example.com").toList) (by decide) (by decide) (by decide)

/-- C10 counterexample: for the valid base URL `https://[::1]:8080/x`, which
carries an explicit port, the generated link's netloc `::1.com` reparses
with a nonempty raw port component `:1.com` - the link still "contains a
port" (Python's `.port` accessor raises on it), refuting the claim for IPv6
bases. -/
theorem claim10_counterexample :
    (urlparse ("https://[::1]:8080/x").toList).map
        (fun pb => portRaw pb.netloc) = .ok (some (("8080").toList)) ∧
      generate_links tldOracleCom ("https://[::1]:8080/x").toList 1
        ("/page{}").toList = .ok [("https://::1.com/page1").toList] ∧
      (urlparse ("https://::1.com/page1").toList).map
        (fun p2 => portRaw p2.netloc) = .ok (some ((":1.com").toList)) :=
  ⟨by decide, by decide, by decide⟩

/-- C10 (amended): for base URLs whose base hostname is an ordinary DNS
label, every generated link's netloc is exactly the base hostname, a dot and
the drawn TLD - the original port is dropped and the reparsed link has no
port component. -/
theorem claim10_amended (r : Nat → TldRand) (u pat : Str) (n : Int)
    (links : List Str) (p : ParseResult) (h : Str) (pt : Str)
    (hp : urlparse u = .ok p) (hh : hostname p = some h)
    (hbh : ∀ c ∈ firstLabel h, c ∈ hostChars)
    (hport : portRaw p.netloc = some pt)
    (hok : generate_links r u n pat = .ok links) :
    ∀ L ∈ links, ∃ p2, urlparse L = .ok p2 ∧
      (∃ tld, p2.netloc = firstLabel h ++ '.' :: tld) ∧
      portRaw p2.netloc = none := by
  intro L hL
  obtain ⟨i, path2, hfmt, rfl⟩ :=
    generate_links_mem r u n pat links p h hp hh hok L hL
  obtain ⟨hne, hchars, hfst, hlast⟩ := gen_netloc_facts (firstLabel h)
    (generate_random_tld (r i) none) hbh (tld_lower (r i))
  have hsch : schemeOkB p.scheme = true := (urlparse_inv u p hp).1
  obtain ⟨pa, pr, q, f, hparse2⟩ := urlparse_unparse
    ⟨p.scheme, firstLabel h ++ '.' :: generate_random_tld (r i) none, path2,
      p.params, p.query, p.fragment⟩ hsch hne hchars
  exact ⟨_, hparse2, ⟨generate_random_tld (r i) none, rfl⟩,
    portRaw_none _ hchars⟩

/-- C10 witness: the amended claim at a concrete base URL with an explicit
port. -/
theorem claim10_witness :
    ∃ p2, urlparse (("https://example.com/page1").toList) = .ok p2 ∧
      (∃ tld, p2.netloc =
        firstLabel (("example.com").toList) ++ '.' :: tld) ∧
      portRaw p2.netloc = none :=
  claim10_amended tldOracleCom (("https://example.com:8080/x").toList)
    (("/page{}").toList) 1 [("https://example.com/page1").toList]
    ⟨("https").toList, ("example.com:8080").toList, ("/x").toList, [], [], []⟩
    (("example.com").toList) (("8080").toList) (by decide) (by decide)
    (by decide) (by decide) (by decide)
    (("https://example.com/page1").toList) (by decide)

